import Mathlib

/-!
Shallow embedding of the label-reconciliation engine of the action-labeler
repository (src/main.go).  Label names, PR bodies and message texts are
modelled as lists of characters; Go maps keyed by strings are modelled as
association lists with unique keys (mapSet / mapGet below); the GitHub API is
modelled as an oracle saying which mutation calls fail, and every run is a
pure function from its inputs and the oracle to the trace of mutation calls
it issues together with its final outcome.
-/

namespace Docbot

/-- Character-list representation of a Go string. -/
abbrev Str := List Char

/-- The character test used by Go strings.TrimSpace (unicode.IsSpace) on the
characters that can actually occur around checkbox marks. -/
def goIsSpace (c : Char) : Bool :=
  c = ' ' || c = '\t' || c = '\n' || (c = Char.ofNat 11) || (c = Char.ofNat 12) ||
  c = '\r' || (c = Char.ofNat 133) || (c = Char.ofNat 160)

/-- Model of Go strings.TrimSpace. -/
def trimSpace (s : Str) : Str :=
  ((s.dropWhile goIsSpace).reverse.dropWhile goIsSpace).reverse

/-- Model of Go strings.ToLower, restricted to ASCII case mapping. -/
def toLowerStr (s : Str) : Str :=
  s.map (fun c => if 'A' ≤ c ∧ c ≤ 'Z' then Char.ofNat (c.toNat + 32) else c)

/-- Go map assignment m[k] = v over an association list: updates the entry in
place when the key is present, appends it otherwise. -/
def mapSet : List (Str × Bool) → Str → Bool → List (Str × Bool)
  | [], k, v => [(k, v)]
  | (k', v') :: m, k, v =>
    if k' = k then (k, v) :: m else (k', v') :: mapSet m k v

/-- Go map lookup m[k] over an association list. -/
def mapGet : List (Str × Bool) → Str → Option Bool
  | [], _ => none
  | (k', v') :: m, k => if k' = k then some v' else mapGet m k

/-- Go map insertion of a key into a string set modelled as a list. -/
def setInsert (s : List Str) (x : Str) : List Str :=
  if x ∈ s then s else s ++ [x]

/-- One regex match of the two-group checklist pattern: g1 is the first
capture group (the checkbox mark), g2 the second (the label name). -/
structure Submatch where
  g1 : Str
  g2 : Str
  deriving DecidableEq, Repr

/-- The checked flag computed by extractLabels from the first capture group. -/
def chkOf (v : Submatch) : Bool :=
  toLowerStr (trimSpace v.g1) = ('x' :: [])

/-- Loop body of extractLabels in src/main.go: iterate over the regex matches,
discard names outside the watch set, and assign labels[name] = checked. -/
def extractGo (watch : List Str) (acc : List (Str × Bool)) :
    List Submatch → List (Str × Bool)
  | [] => acc
  | v :: rest =>
    let name := trimSpace v.g2
    if name ∈ watch then extractGo watch (mapSet acc name (chkOf v)) rest
    else extractGo watch acc rest

/-- extractLabels of src/main.go with the regex engine abstracted: the list of
submatches produced by FindAllStringSubmatch is taken as input. -/
def extractFromMatches (watch : List Str) (targets : List Submatch) :
    List (Str × Bool) :=
  extractGo watch [] targets

/-- The last (rightmost) match of a list of submatches whose trimmed name is
the given one and lies in the watch set. -/
def lastMatchFor (watch : List Str) (n : Str) : List Submatch → Option Submatch
  | [] => none
  | v :: r =>
    match lastMatchFor watch n r with
    | some w => some w
    | none =>
      if trimSpace v.g2 = n ∧ trimSpace v.g2 ∈ watch then some v else none

/-- The configuration fields of ActionConfig that the reconciliation logic
reads. -/
structure Config where
  labelWatchSet : List Str
  labelMissing : Str
  enableLabelMissing : Bool
  enableLabelMultiple : Bool

/-- Which individual GitHub API mutation calls fail, by call site. -/
structure Oracle where
  removeFails : Str → Bool
  addLabelsFails : List Str → Bool
  addMissingFails : Bool
  commentMultipleFails : Bool
  commentMissingFails : Bool
  editFails : Bool

/-- The oracle under which every API call succeeds. -/
def allOk : Oracle :=
  ⟨fun _ => false, fun _ => false, false, false, false, false⟩

/-- Which canned message a posted comment carries. -/
inductive Msg
  | multiple
  | missing
  deriving DecidableEq, Repr

/-- The mutation calls a run issues, in order, by kind. -/
structure Trace where
  removeCalls : List Str
  addCalls : List (List Str)
  commentCalls : List (Str × Msg)
  editCalls : List Str
  deriving DecidableEq, Repr

/-- The error values a run can return (abstracting the fmt.Errorf texts). -/
inductive RunError
  | createComment
  | multipleLabels
  | removeLabel (l : Str)
  | addMissing
  | missingLabel
  | editPR
  deriving DecidableEq, Repr

/-- currentLabelsSet: the issue labels intersected with the watch set plus the
missing-label sentinel (a Go map, hence deduplicated). -/
def currentSetOf (cfg : Config) (issueLabels : List Str) : List Str :=
  (issueLabels.filter
    (fun l => decide (l ∈ cfg.labelWatchSet) || decide (l = cfg.labelMissing))).dedup

/-- expectedLabelsMap: the desired mapping restricted to labels that exist in
the repository. -/
def expectedOf (repoLabels : List Str) (desired : List (Str × Bool)) :
    List (Str × Bool) :=
  desired.filter (fun p => decide (p.1 ∈ repoLabels))

/-- checkedCount on the opened/edited path: the number of filtered-desired
entries with checked == true. -/
def checkedCountOpened (expected : List (Str × Bool)) : Nat :=
  (expected.filter (fun p => p.2)).length

/-- labelsToRemove before the sentinel rule on the opened/edited path. -/
def baseRemoveOpened (cfg : Config) (expected : List (Str × Bool))
    (current : List Str) : List Str :=
  if expected = [] then
    cfg.labelWatchSet.dedup.filter (fun l => decide (l ∈ current))
  else
    current.filter
      (fun l => !decide (l = cfg.labelMissing) && !decide (mapGet expected l = some true))

/-- labelsToRemove on the opened/edited path, after the sentinel rule: the
sentinel is inserted when it is currently present and checkedCount is
positive. -/
def removeListOpened (cfg : Config) (expected : List (Str × Bool))
    (current : List Str) : List Str :=
  let base := baseRemoveOpened cfg expected current
  if cfg.labelMissing ∈ current ∧ 0 < checkedCountOpened expected then
    setInsert base cfg.labelMissing
  else base

/-- labelsToAdd on the opened/edited path: checked filtered-desired names not
already on the issue. -/
def addListOpened (expected : List (Str × Bool)) (current : List Str) :
    List Str :=
  (expected.filter (fun p => p.2 && !decide (p.1 ∈ current))).map Prod.fst

/-- The removal loop: each RemoveLabelForIssue call either succeeds, or fails
and makes the function return at once, skipping the rest of the loop. -/
def removeLoop (ora : Oracle) : List Str → List Str × Option RunError
  | [] => ([], none)
  | l :: rest =>
    if ora.removeFails l then ([l], some (RunError.removeLabel l))
    else
      let r := removeLoop ora rest
      (l :: r.1, r.2)

/-- OnPullRequestOpenedOrEdited of src/main.go, as a pure function from the
fetched repo labels, issue labels, extracted desired mapping, PR author and
API oracle to the issued mutation calls and returned error. -/
def onPullRequestOpenedOrEdited (cfg : Config) (repoLabels issueLabels : List Str)
    (desired : List (Str × Bool)) (author : Str) (ora : Oracle) :
    Trace × Option RunError :=
  let current := currentSetOf cfg issueLabels
  let expected := expectedOf repoLabels desired
  let cc := checkedCountOpened expected
  if cfg.enableLabelMultiple = false ∧ 1 < cc then
    (⟨[], [], [(author, Msg.multiple)], []⟩,
      if ora.commentMultipleFails then some RunError.createComment
      else some RunError.multipleLabels)
  else
    let rem := removeLoop ora (removeListOpened cfg expected current)
    match rem.2 with
    | some e => (⟨rem.1, [], [], []⟩, some e)
    | none =>
      let toAdd := addListOpened expected current
      let addCalls1 : List (List Str) := if toAdd = [] then [] else [toAdd]
      if cfg.enableLabelMissing = true ∧ cc = 0 then
        if ora.addMissingFails then
          (⟨rem.1, addCalls1 ++ [[cfg.labelMissing]], [], []⟩, some RunError.addMissing)
        else
          (⟨rem.1, addCalls1 ++ [[cfg.labelMissing]], [(author, Msg.missing)], []⟩,
            some RunError.missingLabel)
      else (⟨rem.1, addCalls1, [], []⟩, none)

/-- checkedCount on the labeled/unlabeled path: the number of current labels
that are absent from the filtered-desired mapping and differ from the
missing-label sentinel. -/
def checkedCountLabeled (cfg : Config) (expected : List (Str × Bool))
    (current : List Str) : Nat :=
  (current.filter
    (fun l => decide (mapGet expected l = none) && !decide (l = cfg.labelMissing))).length

/-- changeList of OnPullRequestLabeledOrUnlabeled: current labels not checked
in the desired mapping are marked true (needs a checked box), checked desired
names not currently attached are marked false (needs an unchecked box). -/
def changeListOf (expected : List (Str × Bool)) (current : List Str) :
    List (Str × Bool) :=
  let s1 := current.foldl
    (fun acc l => if mapGet expected l = some true then acc else mapSet acc l true) []
  expected.foldl
    (fun acc p => if ¬ p.1 ∈ current ∧ p.2 = true then mapSet acc p.1 false else acc) s1

/-- Substring containment, Go strings.Contains. -/
def containsSub (s p : Str) : Bool :=
  if p.isPrefixOf s then true
  else
    match s with
    | [] => false
    | _ :: t => containsSub t p

/-- Replacement of the first occurrence, Go strings.Replace with n = 1. -/
def replace1 (s p r : Str) : Str :=
  if p.isPrefixOf s then r ++ s.drop p.length
  else
    match s with
    | [] => []
    | c :: t => c :: replace1 t p r

/-- The literal unchecked checklist line for a label. -/
def uncheckedLine (l : Str) : Str :=
  ("- [ ] `").data ++ l ++ ("`").data

/-- The literal checked checklist line for a label. -/
def checkedLine (l : Str) : Str :=
  ("- [x] `").data ++ l ++ ("`").data

/-- One body edit of the labeled path: replace the first occurrence of the
prior checkbox line when present, append the flipped line otherwise. -/
def applyEdit (body : Str) (p : Str × Bool) : Str :=
  let src := if p.2 then uncheckedLine p.1 else checkedLine p.1
  let dst := if p.2 then checkedLine p.1 else uncheckedLine p.1
  if containsSub body src then replace1 body src dst
  else body ++ ('\r' :: '\n' :: dst) ++ ('\r' :: '\n' :: [])

/-- The body rebuilt by the labeled path from the change list. -/
def syncBody (body : Str) (changeList : List (Str × Bool)) : Str :=
  changeList.foldl applyEdit body

/-- OnPullRequestLabeledOrUnlabeled of src/main.go as a pure function; event
is the triggering action type. -/
def onPullRequestLabeledOrUnlabeled (cfg : Config)
    (repoLabels issueLabels : List Str) (desired : List (Str × Bool))
    (author body event : Str) (ora : Oracle) : Trace × Option RunError :=
  let current := currentSetOf cfg issueLabels
  let expected := expectedOf repoLabels desired
  let cc := checkedCountLabeled cfg expected current
  if cfg.enableLabelMultiple = false ∧ 1 < cc then
    (⟨[], [], [(author, Msg.multiple)], []⟩,
      if ora.commentMultipleFails then some RunError.createComment
      else some RunError.multipleLabels)
  else
    let toRemove := if cfg.labelMissing ∈ current ∧ 0 < cc then [cfg.labelMissing] else []
    let rem := removeLoop ora toRemove
    match rem.2 with
    | some e => (⟨rem.1, [], [], []⟩, some e)
    | none =>
      if cfg.enableLabelMissing = true ∧ cc = 0 then
        if ora.addMissingFails then
          (⟨rem.1, [[cfg.labelMissing]], [], []⟩, some RunError.addMissing)
        else
          (⟨rem.1, [[cfg.labelMissing]], [(author, Msg.missing)], []⟩,
            some RunError.missingLabel)
      else if event = ("unlabeled").data then (⟨rem.1, [], [], []⟩, none)
      else
        let cl := changeListOf expected current
        let newBody := syncBody body cl
        if cl = [] then (⟨rem.1, [], [], []⟩, none)
        else
          (⟨rem.1, [], [], [newBody]⟩,
            if ora.editFails then some RunError.editPR else none)

/-- Action.Run of src/main.go: dispatch on the action type; other action
types are no-ops. -/
def runAction (cfg : Config) (repoLabels issueLabels : List Str)
    (desired : List (Str × Bool)) (author body event : Str) (ora : Oracle) :
    Trace × Option RunError :=
  if event = ("opened").data ∨ event = ("edited").data then
    onPullRequestOpenedOrEdited cfg repoLabels issueLabels desired author ora
  else if event = ("labeled").data ∨ event = ("unlabeled").data then
    onPullRequestLabeledOrUnlabeled cfg repoLabels issueLabels desired author body event ora
  else (⟨[], [], [], []⟩, none)

/-- Scanner for the lazy group (.+?) up to the closing backtick of the default
pattern: consumes characters until a backtick, failing on a newline or on the
end of the text. -/
def closeScan : Str → Option (Str × Str)
  | [] => none
  | c :: r =>
    if c = '`' then some ([], r)
    else if c = '\n' then none
    else (closeScan r).map (fun q => (c :: q.1, q.2))

/-- The lazy group (.+?) of the default pattern: at least one non-newline
character, then the shortest continuation up to a backtick. -/
def g2Scan : Str → Option (Str × Str)
  | [] => none
  | c :: r =>
    if c = '\n' then none
    else (closeScan r).map (fun q => (c :: q.1, q.2))

/-- After the closing bracket of the default pattern: an optional space, a
backtick, then the name group. -/
def tailParse : Str → Option (Str × Str)
  | '`' :: u => g2Scan u
  | ' ' :: '`' :: u => g2Scan u
  | _ => none

/-- The lazy group (.*?) of the default pattern together with backtracking:
candidate closing brackets are tried left to right, extending the group past
a bracket whose continuation fails to parse. -/
def afterBrack (acc : Str) : Str → Option (Str × Str × Str)
  | [] => none
  | c :: rest =>
    if c = '\n' then none
    else if c = ']' then
      match tailParse rest with
      | some (g2, r) => some (acc.reverse, g2, r)
      | none => afterBrack (']' :: acc) rest
    else afterBrack (c :: acc) rest

/-- Attempt to match the default checklist pattern at the start of the text,
returning both capture groups and the text after the match. -/
def matchAt : Str → Option (Str × Str × Str)
  | '-' :: ' ' :: '[' :: t => afterBrack [] t
  | _ => none

/-- Fuelled scan of the whole text for successive leftmost non-overlapping
matches of the default pattern. -/
def findAllFuel : Nat → Str → List Submatch
  | 0, _ => []
  | Nat.succ f, s =>
    match matchAt s with
    | some (g1, g2, rest) => ⟨g1, g2⟩ :: findAllFuel f rest
    | none =>
      match s with
      | [] => []
      | _ :: t => findAllFuel f t

/-- FindAllStringSubmatch of the default checklist pattern. -/
def findAll (s : Str) : List Submatch :=
  findAllFuel (s.length + 1) s

/-- extractLabels of src/main.go instantiated with the default pattern. -/
def extractLabelsDefault (watch : List Str) (body : Str) : List (Str × Bool) :=
  extractFromMatches watch (findAll body)

/-- A canonical PR-body line: free text, or a literal checkbox line with a
trailing tail. -/
inductive CItem
  | filler (s : Str)
  | box (name : Str) (checked : Bool) (suf : Str)
  deriving DecidableEq, Repr

/-- The checkbox mark character for a checked state. -/
def markChar (checked : Bool) : Char :=
  if checked then 'x' else ' '

/-- The rendered text of one canonical line. -/
def lineOf : CItem → Str
  | CItem.filler s => s
  | CItem.box n c suf =>
    ('-' :: ' ' :: '[' :: markChar c :: ']' :: ' ' :: '`' :: []) ++ n ++ '`' :: suf

/-- The rendered text of a canonical body, lines joined by newlines. -/
def renderC : List CItem → Str
  | [] => []
  | [it] => lineOf it
  | it :: rest => lineOf it ++ '\n' :: renderC rest

/-- The checkbox entries of a canonical body, in order. -/
def boxesOf : List CItem → List (Str × Bool)
  | [] => []
  | CItem.filler _ :: r => boxesOf r
  | CItem.box n c _ :: r => (n, c) :: boxesOf r

/-- A label name that the default pattern can carry in a checkbox line. -/
def wfName (n : Str) : Prop :=
  n ≠ [] ∧ (∀ c ∈ n, c ≠ '`' ∧ c ≠ '[' ∧ c ≠ '\n' ∧ c ≠ '\r') ∧ trimSpace n = n

/-- Free text that neither contains a newline nor can take part in a match or
a checkbox-line occurrence: no opening bracket. -/
def wfTail (s : Str) : Prop :=
  ∀ c ∈ s, c ≠ '[' ∧ c ≠ '\n'

/-- Wellformedness of one canonical line. -/
def wfItem : CItem → Prop
  | CItem.filler s => wfTail s
  | CItem.box n _ suf => wfName n ∧ wfTail suf

/-- Flip the first checkbox with the given name and prior mark. -/
def updBox (n : Str) (fromC toC : Bool) : List CItem → List CItem
  | [] => []
  | CItem.box n' c' suf :: r =>
    if n' = n ∧ c' = fromC then CItem.box n toC suf :: r
    else CItem.box n' c' suf :: updBox n fromC toC r
  | CItem.filler s :: r => CItem.filler s :: updBox n fromC toC r

/-- Append a carriage return to the last canonical line. -/
def addCR : List CItem → List CItem
  | [] => []
  | [CItem.filler s] => [CItem.filler (s ++ ('\r' :: []))]
  | [CItem.box n c suf] => [CItem.box n c (suf ++ ('\r' :: []))]
  | it :: r => it :: addCR r

/-- The canonical effect of appending a checkbox line to the body text. -/
def appendBox (its : List CItem) (n : Str) (c : Bool) : List CItem :=
  addCR its ++ [CItem.box n c ('\r' :: []), CItem.filler []]

/-- The canonical counterpart of one body edit of the labeled path. -/
def applyEditC (its : List CItem) (p : Str × Bool) : List CItem :=
  if (p.1, !p.2) ∈ boxesOf its then updBox p.1 (!p.2) p.2 its
  else appendBox its p.1 p.2

/-- The canonical counterpart of the body synchronizer. -/
def syncC (its : List CItem) (cl : List (Str × Bool)) : List CItem :=
  cl.foldl applyEditC its

/-- Invariant of a canonical body: non-empty, wellformed lines, pairwise
distinct checkbox names. -/
def invC (its : List CItem) : Prop :=
  its ≠ [] ∧ (∀ it ∈ its, wfItem it) ∧ ((boxesOf its).map Prod.fst).Nodup

/-- Concrete label name used by witnesses. -/
def docS : Str := ("doc").data

/-- Concrete label name used by witnesses. -/
def clientS : Str := ("client").data

/-- Concrete label name used by witnesses. -/
def otherS : Str := ("other").data

/-- Concrete missing-label sentinel name used by witnesses. -/
def missS : Str := ("label-missing").data

/-- Concrete PR author used by witnesses. -/
def aliceS : Str := ("alice").data

/-- Concrete configuration used by witnesses: three watched labels, the
default sentinel, missing-label handling on, multi-select off. -/
def cfg1 : Config := ⟨[docS, clientS, otherS], missS, true, false⟩

/-- Concrete oracle under which every RemoveLabelForIssue call fails and
every other call succeeds. -/
def oraRemoveFail : Oracle :=
  ⟨fun _ => true, fun _ => false, false, false, false, false⟩

/-- Concrete configuration used by witnesses: like cfg1 but with multi-select
enabled. -/
def cfg2 : Config := ⟨[docS, clientS, otherS], missS, true, true⟩

theorem mapGet_mapSet (m : List (Str × Bool)) (k : Str) (v : Bool) (n : Str) :
    mapGet (mapSet m k v) n = if n = k then some v else mapGet m n := by
  induction m with
  | nil =>
    by_cases h : n = k
    · simp [mapSet, mapGet, h]
    · have h' : ¬ k = n := fun hc => h hc.symm
      simp [mapSet, mapGet, h, h']
  | cons p m ih =>
    obtain ⟨k', v'⟩ := p
    by_cases h : k' = k
    · subst h
      by_cases h2 : n = k'
      · subst h2
        simp [mapSet, mapGet]
      · have h2' : ¬ k' = n := fun hc => h2 hc.symm
        simp [mapSet, mapGet, h2, h2']
    · by_cases h2 : k' = n
      · have h3 : ¬ n = k := fun hc => h (h2.trans hc)
        simp [mapSet, mapGet, h, h2, h3]
      · simp [mapSet, mapGet, h, h2, ih]

theorem mapSet_mem (m : List (Str × Bool)) (k : Str) (v : Bool) (p : Str × Bool)
    (hp : p ∈ mapSet m k v) : p = (k, v) ∨ p ∈ m := by
  induction m with
  | nil =>
    simp [mapSet] at hp
    exact Or.inl hp
  | cons q m ih =>
    obtain ⟨k', v'⟩ := q
    by_cases h : k' = k
    · subst h
      rw [mapSet, if_pos rfl, List.mem_cons] at hp
      rcases hp with h1 | h1
      · exact Or.inl h1
      · exact Or.inr (List.mem_cons_of_mem _ h1)
    · rw [mapSet, if_neg h, List.mem_cons] at hp
      rcases hp with h1 | h1
      · exact Or.inr (by simp [h1])
      · rcases ih h1 with h2 | h2
        · exact Or.inl h2
        · exact Or.inr (List.mem_cons_of_mem _ h2)

theorem extractGo_mem (watch : List Str) (ts : List Submatch)
    (acc : List (Str × Bool)) (p : Str × Bool)
    (hp : p ∈ extractGo watch acc ts) : p.1 ∈ watch ∨ p ∈ acc := by
  induction ts generalizing acc with
  | nil => exact Or.inr (by simpa [extractGo] using hp)
  | cons v r ih =>
    simp only [extractGo] at hp
    by_cases h : trimSpace v.g2 ∈ watch
    · simp only [if_pos h] at hp
      rcases ih _ hp with h1 | h1
      · exact Or.inl h1
      · rcases mapSet_mem _ _ _ _ h1 with h2 | h2
        · subst h2
          exact Or.inl h
        · exact Or.inr h2
    · simp only [if_neg h] at hp
      exact ih _ hp

theorem extractGo_mapGet (watch : List Str) (ts : List Submatch)
    (acc : List (Str × Bool)) (n : Str) :
    mapGet (extractGo watch acc ts) n =
      match lastMatchFor watch n ts with
      | some w => some (chkOf w)
      | none => mapGet acc n := by
  induction ts generalizing acc with
  | nil => simp [extractGo, lastMatchFor]
  | cons v r ih =>
    simp only [extractGo, lastMatchFor]
    by_cases h : trimSpace v.g2 ∈ watch
    · simp only [if_pos h, ih]
      cases hl : lastMatchFor watch n r with
      | some w => rfl
      | none =>
        simp only [mapGet_mapSet]
        by_cases h2 : trimSpace v.g2 = n
        · rw [h2] at h
          simp [h2, h]
        · have h3 : ¬ n = trimSpace v.g2 := fun hc => h2 hc.symm
          simp [h3, h2]
    · simp only [if_neg h, ih]
      cases hl : lastMatchFor watch n r with
      | some w => rfl
      | none =>
        have : ¬ (trimSpace v.g2 = n ∧ trimSpace v.g2 ∈ watch) := fun hc => h hc.2
        simp [this]

/-- Claim C4: over any list of pattern matches and any watch set, extractLabels
returns a mapping that contains no name outside the watch set, maps each name
to the checked value of its last (rightmost) match, is empty when there is no
match at all, and marks a name checked exactly when the trimmed, lower-cased
first capture group of its last match is the single letter x. -/
theorem extractLabels_spec (watch : List Str) (ts : List Submatch) (n : Str) :
    (∀ p ∈ extractFromMatches watch ts, p.1 ∈ watch) ∧
    (mapGet (extractFromMatches watch ts) n =
      match lastMatchFor watch n ts with
      | some w => some (chkOf w)
      | none => none) ∧
    extractFromMatches watch [] = [] ∧
    (∀ v : Submatch, chkOf v = true ↔ toLowerStr (trimSpace v.g1) = ('x' :: [])) := by
  refine ⟨fun p hp => ?_, ?_, rfl, fun v => by simp [chkOf]⟩
  · rcases extractGo_mem watch ts [] p hp with h | h
    · exact h
    · simp at h
  · have := extractGo_mapGet watch ts [] n
    simpa [mapGet] using this

theorem removeLoop_ok (ora : Oracle) (L : List Str)
    (h : ∀ l, ora.removeFails l = false) : removeLoop ora L = (L, none) := by
  induction L with
  | nil => rfl
  | cons l r ih => simp [removeLoop, h l, ih]

theorem removeLoop_mem (ora : Oracle) (L : List Str) (x : Str)
    (hx : x ∈ (removeLoop ora L).1) : x ∈ L := by
  induction L with
  | nil => simp [removeLoop] at hx
  | cons l r ih =>
    cases h : ora.removeFails l with
    | true =>
      simp [removeLoop, h] at hx
      simp [hx]
    | false =>
      simp only [removeLoop, h, Bool.false_eq_true, if_false, List.mem_cons] at hx
      rcases hx with h1 | h1
      · simp [h1]
      · exact List.mem_cons_of_mem _ (ih h1)

theorem removeLoop_fail (ora : Oracle) (L : List Str) (l : Str)
    (hl : l ∈ L) (hf : ora.removeFails l = true) :
    ((removeLoop ora L).2).isSome = true := by
  induction L with
  | nil => simp at hl
  | cons a r ih =>
    cases h : ora.removeFails a with
    | true => simp [removeLoop, h]
    | false =>
      rcases List.mem_cons.mp hl with h1 | h1
      · subst h1
        simp [h] at hf
      · simp [removeLoop, h, ih h1]

/-- Claim C1: on the opened/edited path, when multi-select is disabled and
more than one filtered-desired entry is checked, the run issues no remove
call and no add call, posts exactly one comment addressed to the PR author,
and returns an error, whatever the other inputs and the API oracle. -/
theorem multiple_short_circuit (cfg : Config) (rl il : List Str)
    (des : List (Str × Bool)) (author : Str) (ora : Oracle)
    (h1 : cfg.enableLabelMultiple = false)
    (h2 : 1 < checkedCountOpened (expectedOf rl des)) :
    (onPullRequestOpenedOrEdited cfg rl il des author ora).1.removeCalls = [] ∧
    (onPullRequestOpenedOrEdited cfg rl il des author ora).1.addCalls = [] ∧
    (onPullRequestOpenedOrEdited cfg rl il des author ora).1.commentCalls =
      [(author, Msg.multiple)] ∧
    ((onPullRequestOpenedOrEdited cfg rl il des author ora).2).isSome = true := by
  simp only [onPullRequestOpenedOrEdited]
  rw [if_pos ⟨h1, h2⟩]
  refine ⟨rfl, rfl, rfl, ?_⟩
  cases ora.commentMultipleFails <;> simp

/-- Witness for C1 at a concrete input: two checked labels, multi-select
disabled. -/
theorem multiple_short_circuit_witness :
    cfg1.enableLabelMultiple = false ∧
    1 < checkedCountOpened (expectedOf [docS, clientS] [(docS, true), (clientS, true)]) ∧
    ((onPullRequestOpenedOrEdited cfg1 [docS, clientS] [otherS]
        [(docS, true), (clientS, true)] aliceS allOk).1.removeCalls = [] ∧
      (onPullRequestOpenedOrEdited cfg1 [docS, clientS] [otherS]
        [(docS, true), (clientS, true)] aliceS allOk).1.addCalls = [] ∧
      (onPullRequestOpenedOrEdited cfg1 [docS, clientS] [otherS]
        [(docS, true), (clientS, true)] aliceS allOk).1.commentCalls =
        [(aliceS, Msg.multiple)] ∧
      ((onPullRequestOpenedOrEdited cfg1 [docS, clientS] [otherS]
        [(docS, true), (clientS, true)] aliceS allOk).2).isSome = true) :=
  ⟨rfl, by decide,
    multiple_short_circuit cfg1 [docS, clientS] [otherS]
      [(docS, true), (clientS, true)] aliceS allOk rfl (by decide)⟩

/-- Claim C3: on the opened/edited path, whenever the filtered-desired
mapping is empty, the removal calls are exactly the intersection of the watch
set with the current label set, so an empty or unrecognized body clears all
managed labels. -/
theorem empty_desired_clears (cfg : Config) (rl il : List Str)
    (des : List (Str × Bool)) (author : Str) (ora : Oracle)
    (hdes : expectedOf rl des = [])
    (hora : ∀ l, ora.removeFails l = false) (l : Str) :
    l ∈ (onPullRequestOpenedOrEdited cfg rl il des author ora).1.removeCalls ↔
      l ∈ cfg.labelWatchSet ∧ l ∈ currentSetOf cfg il := by
  have hcc : checkedCountOpened (expectedOf rl des) = 0 := by
    rw [hdes]; rfl
  have hnv : ¬ (cfg.enableLabelMultiple = false ∧
      1 < checkedCountOpened (expectedOf rl des)) := by
    rw [hcc]
    rintro ⟨-, h⟩
    exact absurd h (by decide)
  have hs : ¬ (cfg.labelMissing ∈ currentSetOf cfg il ∧
      0 < checkedCountOpened (expectedOf rl des)) := by
    rw [hcc]
    rintro ⟨-, h⟩
    exact absurd h (by decide)
  simp only [onPullRequestOpenedOrEdited, removeListOpened, baseRemoveOpened,
    if_neg hnv, if_neg hs, if_pos hdes, removeLoop_ok ora _ hora]
  split_ifs <;>
    simp [List.mem_filter, List.mem_dedup]

/-- Witness for C3 at a concrete input: empty desired mapping, one watched
label currently attached. -/
theorem empty_desired_clears_witness :
    expectedOf [docS] [] = [] ∧
    (docS ∈ (onPullRequestOpenedOrEdited cfg1 [docS] [docS, missS] [] aliceS
        allOk).1.removeCalls ↔
      docS ∈ cfg1.labelWatchSet ∧ docS ∈ currentSetOf cfg1 [docS, missS]) :=
  ⟨rfl, empty_desired_clears cfg1 [docS] [docS, missS] [] aliceS allOk rfl
    (fun _ => rfl) docS⟩

/-- Claim C5 counterexample: at the steady state with one checked watched
label that is already attached, the two paths compute different checked
counts and return different outcomes: the opened/edited run succeeds while
the labeled run adds the sentinel and fails. -/
theorem checkedCount_paths_differ :
    checkedCountOpened (expectedOf [docS] [(docS, true)]) = 1 ∧
    checkedCountLabeled cfg1 (expectedOf [docS] [(docS, true)])
      (currentSetOf cfg1 [docS]) = 0 ∧
    (onPullRequestOpenedOrEdited cfg1 [docS] [docS] [(docS, true)] aliceS
      allOk).2 = none ∧
    (onPullRequestLabeledOrUnlabeled cfg1 [docS] [docS] [(docS, true)] aliceS
      [] (("labeled").data) allOk).2 = some RunError.missingLabel := by
  decide

/-- Claim C5 amended: on the labeled/unlabeled path the checked count is the
number of current labels absent from the filtered-desired mapping and
different from the sentinel, and the multiple-label and missing-label
outcomes are derived from that count by the same formulas as on the
opened/edited path, so the two paths agree only when the two counts do. -/
theorem labeled_flags_spec (cfg : Config) (rl il : List Str)
    (des : List (Str × Bool)) (author body event : Str) :
    ((onPullRequestLabeledOrUnlabeled cfg rl il des author body event allOk).2 =
        some RunError.multipleLabels ↔
      cfg.enableLabelMultiple = false ∧
        1 < checkedCountLabeled cfg (expectedOf rl des) (currentSetOf cfg il)) ∧
    ((onPullRequestLabeledOrUnlabeled cfg rl il des author body event allOk).2 =
        some RunError.missingLabel ↔
      ¬ (cfg.enableLabelMultiple = false ∧
          1 < checkedCountLabeled cfg (expectedOf rl des) (currentSetOf cfg il)) ∧
        cfg.enableLabelMissing = true ∧
        checkedCountLabeled cfg (expectedOf rl des) (currentSetOf cfg il) = 0) := by
  simp only [onPullRequestLabeledOrUnlabeled, removeLoop_ok allOk _ (fun _ => rfl)]
  constructor
  · split_ifs with h1 h2 h3 <;> simp_all [allOk]
  · split_ifs with h1 h2 h3 <;> simp_all [allOk]

theorem removeLoop_ext (o1 o2 : Oracle) (L : List Str)
    (h : o1.removeFails = o2.removeFails) :
    removeLoop o1 L = removeLoop o2 L := by
  induction L with
  | nil => rfl
  | cons l r ih => simp [removeLoop, h, ih]

/-- Claim C6 counterexample: with two planned removals, one planned addition
and every remove call failing, only the first remove call is attempted, the
add call is never issued, and the run aborts with an error, contradicting the
log-and-continue claim for remove failures. -/
theorem remove_failure_aborts :
    removeListOpened cfg1
      (expectedOf [docS, clientS, otherS]
        [(docS, false), (clientS, false), (otherS, true)])
      (currentSetOf cfg1 [docS, clientS]) = [docS, clientS] ∧
    addListOpened
      (expectedOf [docS, clientS, otherS]
        [(docS, false), (clientS, false), (otherS, true)])
      (currentSetOf cfg1 [docS, clientS]) = [otherS] ∧
    (onPullRequestOpenedOrEdited cfg1 [docS, clientS, otherS] [docS, clientS]
      [(docS, false), (clientS, false), (otherS, true)] aliceS
      oraRemoveFail).1.removeCalls = [docS] ∧
    (onPullRequestOpenedOrEdited cfg1 [docS, clientS, otherS] [docS, clientS]
      [(docS, false), (clientS, false), (otherS, true)] aliceS
      oraRemoveFail).1.addCalls = [] ∧
    (onPullRequestOpenedOrEdited cfg1 [docS, clientS, otherS] [docS, clientS]
      [(docS, false), (clientS, false), (otherS, true)] aliceS
      oraRemoveFail).2 = some (RunError.removeLabel docS) := by
  decide

/-- Claim C6 amended: a failing bulk add call is ignored by the run, whose
result does not depend on that call failing, but a failing remove call for a
planned removal aborts the opened/edited run with an error before any add
call is issued. -/
theorem mutation_failure_policy (cfg : Config) (rl il : List Str)
    (des : List (Str × Bool)) (author : Str) (ora : Oracle)
    (g : List Str → Bool) (l : Str)
    (hl : l ∈ removeListOpened cfg (expectedOf rl des) (currentSetOf cfg il))
    (hf : ora.removeFails l = true) :
    (((onPullRequestOpenedOrEdited cfg rl il des author ora).2).isSome = true ∧
      (onPullRequestOpenedOrEdited cfg rl il des author ora).1.addCalls = []) ∧
    onPullRequestOpenedOrEdited cfg rl il des author
      ⟨ora.removeFails, g, ora.addMissingFails, ora.commentMultipleFails,
        ora.commentMissingFails, ora.editFails⟩ =
      onPullRequestOpenedOrEdited cfg rl il des author ora := by
  constructor
  · by_cases hv : cfg.enableLabelMultiple = false ∧
        1 < checkedCountOpened (expectedOf rl des)
    · simp only [onPullRequestOpenedOrEdited, if_pos hv]
      cases h : ora.commentMultipleFails <;> simp
    · have hsome := removeLoop_fail ora
        (removeListOpened cfg (expectedOf rl des) (currentSetOf cfg il)) l hl hf
      obtain ⟨e, he⟩ := Option.isSome_iff_exists.mp hsome
      simp only [onPullRequestOpenedOrEdited, if_neg hv, he]
      exact ⟨rfl, trivial⟩
  · have hext : removeLoop
        ⟨ora.removeFails, g, ora.addMissingFails, ora.commentMultipleFails,
          ora.commentMissingFails, ora.editFails⟩ =
        removeLoop ora := by
      funext L
      exact removeLoop_ext _ ora L rfl
    simp only [onPullRequestOpenedOrEdited, hext]

/-- Witness for the amended C6 at a concrete input with a failing remove
call. -/
theorem mutation_failure_policy_witness :
    docS ∈ removeListOpened cfg1
      (expectedOf [docS, clientS, otherS]
        [(docS, false), (clientS, false), (otherS, true)])
      (currentSetOf cfg1 [docS, clientS]) ∧
    oraRemoveFail.removeFails docS = true ∧
    ((((onPullRequestOpenedOrEdited cfg1 [docS, clientS, otherS] [docS, clientS]
        [(docS, false), (clientS, false), (otherS, true)] aliceS
        oraRemoveFail).2).isSome = true ∧
      (onPullRequestOpenedOrEdited cfg1 [docS, clientS, otherS] [docS, clientS]
        [(docS, false), (clientS, false), (otherS, true)] aliceS
        oraRemoveFail).1.addCalls = []) ∧
      onPullRequestOpenedOrEdited cfg1 [docS, clientS, otherS] [docS, clientS]
        [(docS, false), (clientS, false), (otherS, true)] aliceS
        ⟨oraRemoveFail.removeFails, fun _ => true, oraRemoveFail.addMissingFails,
          oraRemoveFail.commentMultipleFails, oraRemoveFail.commentMissingFails,
          oraRemoveFail.editFails⟩ =
        onPullRequestOpenedOrEdited cfg1 [docS, clientS, otherS] [docS, clientS]
          [(docS, false), (clientS, false), (otherS, true)] aliceS oraRemoveFail) :=
  ⟨by decide, rfl,
    mutation_failure_policy cfg1 [docS, clientS, otherS] [docS, clientS]
      [(docS, false), (clientS, false), (otherS, true)] aliceS oraRemoveFail
      (fun _ => true) docS (by decide) rfl⟩

/-- Claim C7, evaluated at the failing input: with the sentinel and one
watched label attached and an empty body, the labeled run removes the
sentinel from the issue and yet marks the sentinel in the change list and
writes a checked sentinel checkbox line into the PR body, contradicting the
specification that the sentinel is never marked. -/
theorem sentinel_written_to_body :
    (missS, true) ∈ changeListOf (expectedOf [docS] [])
      (currentSetOf cfg1 [missS, docS]) ∧
    (onPullRequestLabeledOrUnlabeled cfg1 [docS] [missS, docS] [] aliceS []
      (("labeled").data) allOk).1.removeCalls = [missS] ∧
    ((onPullRequestLabeledOrUnlabeled cfg1 [docS] [missS, docS] [] aliceS []
      (("labeled").data) allOk).1.editCalls).length = 1 ∧
    containsSub
      (((onPullRequestLabeledOrUnlabeled cfg1 [docS] [missS, docS] [] aliceS []
        (("labeled").data) allOk).1.editCalls).headD [])
      (checkedLine missS) = true ∧
    (onPullRequestLabeledOrUnlabeled cfg1 [docS] [missS, docS] [] aliceS []
      (("labeled").data) allOk).2 = none := by
  decide

/-- Claim C10: whenever the missing-label feature is enabled, the relevant
checked count is zero and no remove call fails, each path issues the
add-sentinel call, with no test of whether the sentinel is already attached,
and returns an error. -/
theorem missing_label_unconditional (cfg : Config) (rl il : List Str)
    (des : List (Str × Bool)) (author body : Str) (ora : Oracle)
    (hm : cfg.enableLabelMissing = true)
    (hora : ∀ l, ora.removeFails l = false) :
    (checkedCountOpened (expectedOf rl des) = 0 →
      [cfg.labelMissing] ∈
        (onPullRequestOpenedOrEdited cfg rl il des author ora).1.addCalls ∧
      ((onPullRequestOpenedOrEdited cfg rl il des author ora).2).isSome = true) ∧
    (checkedCountLabeled cfg (expectedOf rl des) (currentSetOf cfg il) = 0 →
      [cfg.labelMissing] ∈
        (onPullRequestLabeledOrUnlabeled cfg rl il des author body
          (("labeled").data) ora).1.addCalls ∧
      ((onPullRequestLabeledOrUnlabeled cfg rl il des author body
        (("labeled").data) ora).2).isSome = true) := by
  constructor
  · intro hcc
    have hnv : ¬ (cfg.enableLabelMultiple = false ∧
        1 < checkedCountOpened (expectedOf rl des)) := by
      rw [hcc]
      rintro ⟨-, h⟩
      exact absurd h (by decide)
    simp only [onPullRequestOpenedOrEdited, if_neg hnv,
      removeLoop_ok ora _ hora, if_pos (And.intro hm hcc)]
    cases h : ora.addMissingFails <;> simp
  · intro hcc
    have hnv : ¬ (cfg.enableLabelMultiple = false ∧
        1 < checkedCountLabeled cfg (expectedOf rl des) (currentSetOf cfg il)) := by
      rw [hcc]
      rintro ⟨-, h⟩
      exact absurd h (by decide)
    simp only [onPullRequestLabeledOrUnlabeled, if_neg hnv,
      removeLoop_ok ora _ hora, if_pos (And.intro hm hcc)]
    cases h : ora.addMissingFails <;> simp

/-- Witness for C10 at a concrete input where the sentinel is already
attached and nothing else changed. -/
theorem missing_label_unconditional_witness :
    cfg1.enableLabelMissing = true ∧
    checkedCountOpened (expectedOf [docS] []) = 0 ∧
    checkedCountLabeled cfg1 (expectedOf [docS] []) (currentSetOf cfg1 [missS]) = 0 ∧
    ([missS] ∈ (onPullRequestOpenedOrEdited cfg1 [docS] [missS] [] aliceS
        allOk).1.addCalls ∧
      ((onPullRequestOpenedOrEdited cfg1 [docS] [missS] [] aliceS
        allOk).2).isSome = true) ∧
    ([missS] ∈ (onPullRequestLabeledOrUnlabeled cfg1 [docS] [missS] [] aliceS
        [] (("labeled").data) allOk).1.addCalls ∧
      ((onPullRequestLabeledOrUnlabeled cfg1 [docS] [missS] [] aliceS []
        (("labeled").data) allOk).2).isSome = true) :=
  ⟨rfl, rfl, by decide,
    (missing_label_unconditional cfg1 [docS] [missS] [] aliceS [] allOk rfl
      (fun _ => rfl)).1 rfl,
    (missing_label_unconditional cfg1 [docS] [missS] [] aliceS [] allOk rfl
      (fun _ => rfl)).2 (by decide)⟩

theorem setInsert_mem (s : List Str) (x l : Str) :
    l ∈ setInsert s x ↔ l ∈ s ∨ l = x := by
  unfold setInsert
  split_ifs with h
  · constructor
    · exact fun hl => Or.inl hl
    · rintro (hl | rfl) <;> assumption
  · simp

theorem mapGet_eq_some_iff (m : List (Str × Bool)) (hm : (m.map Prod.fst).Nodup)
    (l : Str) (b : Bool) : mapGet m l = some b ↔ (l, b) ∈ m := by
  induction m with
  | nil => simp [mapGet]
  | cons p m ih =>
    obtain ⟨k, v⟩ := p
    simp only [List.map_cons, List.nodup_cons] at hm
    by_cases h : k = l
    · subst h
      have hget : mapGet ((k, v) :: m) k = some v := by simp [mapGet]
      rw [hget]
      constructor
      · intro hb
        injection hb with hb
        rw [← hb]
        exact List.mem_cons_self _ _
      · intro hb
        rcases List.mem_cons.mp hb with h1 | h1
        · have hbv : b = v := congrArg Prod.snd h1
          rw [hbv]
        · exact absurd (List.mem_map_of_mem Prod.fst h1) hm.1
    · have hget : mapGet ((k, v) :: m) l = mapGet m l := by simp [mapGet, h]
      rw [hget, ih hm.2]
      constructor
      · exact fun hb => List.mem_cons_of_mem _ hb
      · intro hb
        rcases List.mem_cons.mp hb with h1 | h1
        · exact absurd (congrArg Prod.fst h1).symm h
        · exact h1

theorem expectedOf_keys_nodup (rl : List Str) (des : List (Str × Bool))
    (hnd : (des.map Prod.fst).Nodup) :
    ((expectedOf rl des).map Prod.fst).Nodup := by
  unfold expectedOf
  exact hnd.sublist (List.Sublist.map Prod.fst (List.filter_sublist des))

/-- Claim C2 counterexample: with a non-empty filtered-desired mapping whose
checked count is two and multi-select disabled, a current watched label that
the claim says must be removed is not removed and nothing is added: the
multiple-selection short-circuit overrides the described sets. -/
theorem opened_sets_cex :
    expectedOf [docS, clientS] [(docS, true), (clientS, true)] ≠ [] ∧
    otherS ∈ currentSetOf cfg1 [otherS, missS] ∧
    otherS ≠ cfg1.labelMissing ∧
    mapGet (expectedOf [docS, clientS] [(docS, true), (clientS, true)]) otherS ≠
      some true ∧
    (onPullRequestOpenedOrEdited cfg1 [docS, clientS] [otherS, missS]
      [(docS, true), (clientS, true)] aliceS allOk).1.removeCalls = [] ∧
    (onPullRequestOpenedOrEdited cfg1 [docS, clientS] [otherS, missS]
      [(docS, true), (clientS, true)] aliceS allOk).1.addCalls = [] := by
  decide

/-- Claim C2 amended: on the opened/edited path with a non-empty
filtered-desired mapping, provided the multiple-selection short-circuit does
not fire and the remove calls succeed, the removal calls are exactly the
current labels other than the sentinel that are not checked in
filtered-desired, plus the sentinel exactly when it is present and the
checked count is positive; the computed addition list is exactly the checked
filtered-desired names not currently attached, and the issued add calls are
that list when non-empty followed by the sentinel singleton when the
missing-label branch fires. -/
theorem opened_sets_spec (cfg : Config) (rl il : List Str)
    (des : List (Str × Bool)) (author : Str) (ora : Oracle)
    (hnd : (des.map Prod.fst).Nodup)
    (hne : expectedOf rl des ≠ [])
    (hnv : ¬ (cfg.enableLabelMultiple = false ∧
      1 < checkedCountOpened (expectedOf rl des)))
    (hora : ∀ l, ora.removeFails l = false) (l : Str) :
    (l ∈ (onPullRequestOpenedOrEdited cfg rl il des author ora).1.removeCalls ↔
      (l ∈ currentSetOf cfg il ∧ l ≠ cfg.labelMissing ∧
        mapGet (expectedOf rl des) l ≠ some true) ∨
      (l = cfg.labelMissing ∧ cfg.labelMissing ∈ currentSetOf cfg il ∧
        0 < checkedCountOpened (expectedOf rl des))) ∧
    (l ∈ addListOpened (expectedOf rl des) (currentSetOf cfg il) ↔
      mapGet (expectedOf rl des) l = some true ∧ l ∉ currentSetOf cfg il) ∧
    (onPullRequestOpenedOrEdited cfg rl il des author ora).1.addCalls =
      (if addListOpened (expectedOf rl des) (currentSetOf cfg il) = [] then []
        else [addListOpened (expectedOf rl des) (currentSetOf cfg il)]) ++
      (if cfg.enableLabelMissing = true ∧
          checkedCountOpened (expectedOf rl des) = 0
        then [[cfg.labelMissing]] else []) := by
  have htr :
      (onPullRequestOpenedOrEdited cfg rl il des author ora).1.removeCalls =
        removeListOpened cfg (expectedOf rl des) (currentSetOf cfg il) ∧
      (onPullRequestOpenedOrEdited cfg rl il des author ora).1.addCalls =
        (if addListOpened (expectedOf rl des) (currentSetOf cfg il) = [] then []
          else [addListOpened (expectedOf rl des) (currentSetOf cfg il)]) ++
        (if cfg.enableLabelMissing = true ∧
            checkedCountOpened (expectedOf rl des) = 0
          then [[cfg.labelMissing]] else []) := by
    simp only [onPullRequestOpenedOrEdited, if_neg hnv, removeLoop_ok ora _ hora]
    split_ifs with h1 h2 <;> simp
  refine ⟨?_, ?_, htr.2⟩
  · rw [htr.1]
    unfold removeListOpened baseRemoveOpened
    rw [if_neg hne]
    split_ifs with hc
    · rw [setInsert_mem]
      simp only [List.mem_filter, Bool.and_eq_true, Bool.not_eq_true',
        decide_eq_false_iff_not, decide_eq_true_eq]
      constructor
      · rintro (⟨h1, h2, h3⟩ | rfl)
        · exact Or.inl ⟨h1, h2, h3⟩
        · exact Or.inr ⟨rfl, hc.1, hc.2⟩
      · rintro (⟨h1, h2, h3⟩ | ⟨rfl, -, -⟩)
        · exact Or.inl ⟨h1, h2, h3⟩
        · exact Or.inr rfl
    · simp only [List.mem_filter, Bool.and_eq_true, Bool.not_eq_true',
        decide_eq_false_iff_not, decide_eq_true_eq]
      constructor
      · rintro ⟨h1, h2, h3⟩
        exact Or.inl ⟨h1, h2, h3⟩
      · rintro (⟨h1, h2, h3⟩ | ⟨rfl, hm, hcc⟩)
        · exact ⟨h1, h2, h3⟩
        · exact absurd ⟨hm, hcc⟩ hc
  · unfold addListOpened
    simp only [List.mem_map, List.mem_filter, Bool.and_eq_true,
      Bool.not_eq_true', decide_eq_false_iff_not]
    constructor
    · rintro ⟨⟨k, b⟩, ⟨hk, hb, hcur⟩, hkl⟩
      simp only at hb hcur hkl
      subst hkl
      subst hb
      exact ⟨(mapGet_eq_some_iff _ (expectedOf_keys_nodup rl des hnd) _ _).mpr hk,
        hcur⟩
    · rintro ⟨hget, hcur⟩
      exact ⟨(l, true),
        ⟨(mapGet_eq_some_iff _ (expectedOf_keys_nodup rl des hnd) _ _).mp hget,
          rfl, hcur⟩, rfl⟩

/-- Witness for the amended C2 at a concrete input with multi-select enabled,
two checked labels, a stale current label and the sentinel attached. -/
theorem opened_sets_spec_witness :
    ((([(docS, true), (clientS, true)] : List (Str × Bool)).map Prod.fst).Nodup ∧
      expectedOf [docS, clientS] [(docS, true), (clientS, true)] ≠ [] ∧
      ¬ (cfg2.enableLabelMultiple = false ∧
        1 < checkedCountOpened
          (expectedOf [docS, clientS] [(docS, true), (clientS, true)]))) ∧
    ((clientS ∈ (onPullRequestOpenedOrEdited cfg2 [docS, clientS]
        [otherS, missS, docS] [(docS, true), (clientS, true)] aliceS
        allOk).1.removeCalls ↔
      (clientS ∈ currentSetOf cfg2 [otherS, missS, docS] ∧
        clientS ≠ cfg2.labelMissing ∧
        mapGet (expectedOf [docS, clientS] [(docS, true), (clientS, true)])
          clientS ≠ some true) ∨
      (clientS = cfg2.labelMissing ∧
        cfg2.labelMissing ∈ currentSetOf cfg2 [otherS, missS, docS] ∧
        0 < checkedCountOpened
          (expectedOf [docS, clientS] [(docS, true), (clientS, true)]))) ∧
    (clientS ∈ addListOpened
        (expectedOf [docS, clientS] [(docS, true), (clientS, true)])
        (currentSetOf cfg2 [otherS, missS, docS]) ↔
      mapGet (expectedOf [docS, clientS] [(docS, true), (clientS, true)])
          clientS = some true ∧
        clientS ∉ currentSetOf cfg2 [otherS, missS, docS]) ∧
    (onPullRequestOpenedOrEdited cfg2 [docS, clientS] [otherS, missS, docS]
        [(docS, true), (clientS, true)] aliceS allOk).1.addCalls =
      (if addListOpened
          (expectedOf [docS, clientS] [(docS, true), (clientS, true)])
          (currentSetOf cfg2 [otherS, missS, docS]) = [] then []
        else [addListOpened
          (expectedOf [docS, clientS] [(docS, true), (clientS, true)])
          (currentSetOf cfg2 [otherS, missS, docS])]) ++
      (if cfg2.enableLabelMissing = true ∧
          checkedCountOpened
            (expectedOf [docS, clientS] [(docS, true), (clientS, true)]) = 0
        then [[cfg2.labelMissing]] else [])) :=
  ⟨⟨by decide, by decide, by decide⟩,
    opened_sets_spec cfg2 [docS, clientS] [otherS, missS, docS]
      [(docS, true), (clientS, true)] aliceS allOk (by decide) (by decide)
      (by decide) (fun _ => rfl) clientS⟩

theorem currentSetOf_mem (cfg : Config) (il : List Str) (x : Str)
    (hx : x ∈ currentSetOf cfg il) :
    x ∈ cfg.labelWatchSet ∨ x = cfg.labelMissing := by
  unfold currentSetOf at hx
  rw [List.mem_dedup, List.mem_filter] at hx
  rcases hx with ⟨-, h⟩
  simpa using h

theorem baseRemoveOpened_frame (cfg : Config) (e : List (Str × Bool))
    (il : List Str) (y : Str)
    (hy : y ∈ baseRemoveOpened cfg e (currentSetOf cfg il)) :
    y ∈ cfg.labelWatchSet ∨ y = cfg.labelMissing := by
  unfold baseRemoveOpened at hy
  split_ifs at hy with h
  · rw [List.mem_filter, List.mem_dedup] at hy
    exact Or.inl hy.1
  · rw [List.mem_filter] at hy
    exact currentSetOf_mem cfg il y hy.1

theorem removeListOpened_frame (cfg : Config) (e : List (Str × Bool))
    (il : List Str) (x : Str)
    (hx : x ∈ removeListOpened cfg e (currentSetOf cfg il)) :
    x ∈ cfg.labelWatchSet ∨ x = cfg.labelMissing := by
  simp only [removeListOpened] at hx
  split_ifs at hx with h
  · rw [setInsert_mem] at hx
    rcases hx with hx | rfl
    · exact baseRemoveOpened_frame cfg e il x hx
    · exact Or.inr rfl
  · exact baseRemoveOpened_frame cfg e il x hx

theorem addListOpened_frame (cfg : Config) (rl : List Str)
    (des : List (Str × Bool)) (cur : List Str) (x : Str)
    (hdes : ∀ p ∈ des, p.1 ∈ cfg.labelWatchSet)
    (hx : x ∈ addListOpened (expectedOf rl des) cur) :
    x ∈ cfg.labelWatchSet := by
  unfold addListOpened expectedOf at hx
  rw [List.mem_map] at hx
  obtain ⟨p, hp, rfl⟩ := hx
  rw [List.mem_filter] at hp
  exact hdes p (List.mem_of_mem_filter hp.1)

theorem frame_opened (cfg : Config) (rl il : List Str) (des : List (Str × Bool))
    (author : Str) (ora : Oracle)
    (hdes : ∀ p ∈ des, p.1 ∈ cfg.labelWatchSet) :
    (∀ x ∈ (onPullRequestOpenedOrEdited cfg rl il des author ora).1.removeCalls,
      x ∈ cfg.labelWatchSet ∨ x = cfg.labelMissing) ∧
    (∀ L ∈ (onPullRequestOpenedOrEdited cfg rl il des author ora).1.addCalls,
      ∀ x ∈ L, x ∈ cfg.labelWatchSet ∨ x = cfg.labelMissing) := by
  have hrm : ∀ x ∈ (removeLoop ora (removeListOpened cfg (expectedOf rl des)
      (currentSetOf cfg il))).1, x ∈ cfg.labelWatchSet ∨ x = cfg.labelMissing :=
    fun x hx => removeListOpened_frame cfg _ il x (removeLoop_mem ora _ x hx)
  suffices h :
      (∀ x ∈ (onPullRequestOpenedOrEdited cfg rl il des author ora).1.removeCalls,
        x ∈ (removeLoop ora (removeListOpened cfg (expectedOf rl des)
          (currentSetOf cfg il))).1) ∧
      (∀ L ∈ (onPullRequestOpenedOrEdited cfg rl il des author ora).1.addCalls,
        L = addListOpened (expectedOf rl des) (currentSetOf cfg il) ∨
          L = [cfg.labelMissing]) by
    refine ⟨fun x hx => hrm x (h.1 x hx), fun L hL x hx => ?_⟩
    rcases h.2 L hL with rfl | rfl
    · exact Or.inl (addListOpened_frame cfg rl des _ x hdes hx)
    · rw [List.mem_singleton] at hx
      exact Or.inr hx
  simp only [onPullRequestOpenedOrEdited]
  by_cases hv : cfg.enableLabelMultiple = false ∧
      1 < checkedCountOpened (expectedOf rl des)
  · rw [if_pos hv]
    exact ⟨fun x hx => absurd hx (List.not_mem_nil x),
      fun L hL => absurd hL (List.not_mem_nil L)⟩
  · rw [if_neg hv]
    cases hrem : (removeLoop ora (removeListOpened cfg (expectedOf rl des)
        (currentSetOf cfg il))).2 with
    | some e =>
      simp only [hrem]
      exact ⟨fun x hx => hx, fun L hL => absurd hL (List.not_mem_nil L)⟩
    | none =>
      simp only [hrem]
      by_cases hmiss : cfg.enableLabelMissing = true ∧
          checkedCountOpened (expectedOf rl des) = 0
      · rw [if_pos hmiss]
        simp only [apply_ite Prod.fst, apply_ite Trace.removeCalls,
          apply_ite Trace.addCalls, ite_self]
        refine ⟨fun x hx => hx, fun L hL => ?_⟩
        rcases List.mem_append.mp hL with h | h
        · split_ifs at h with hta
          · exact absurd h (List.not_mem_nil L)
          · rw [List.mem_singleton] at h
            exact Or.inl h
        · rw [List.mem_singleton] at h
          exact Or.inr h
      · rw [if_neg hmiss]
        refine ⟨fun x hx => hx, fun L hL => ?_⟩
        split_ifs at hL with hta
        · exact absurd hL (List.not_mem_nil L)
        · rw [List.mem_singleton] at hL
          exact Or.inl hL

theorem frame_labeled (cfg : Config) (rl il : List Str) (des : List (Str × Bool))
    (author body event : Str) (ora : Oracle) :
    (∀ x ∈ (onPullRequestLabeledOrUnlabeled cfg rl il des author body event
        ora).1.removeCalls, x = cfg.labelMissing) ∧
    (∀ L ∈ (onPullRequestLabeledOrUnlabeled cfg rl il des author body event
        ora).1.addCalls, L = [cfg.labelMissing]) := by
  have hrm : ∀ x ∈ (removeLoop ora (if cfg.labelMissing ∈ currentSetOf cfg il ∧
      0 < checkedCountLabeled cfg (expectedOf rl des) (currentSetOf cfg il)
      then [cfg.labelMissing] else [])).1, x = cfg.labelMissing := by
    intro x hx
    have h2 := removeLoop_mem ora _ x hx
    split_ifs at h2 with h
    · rw [List.mem_singleton] at h2
      exact h2
    · exact absurd h2 (List.not_mem_nil x)
  simp only [onPullRequestLabeledOrUnlabeled]
  by_cases hv : cfg.enableLabelMultiple = false ∧
      1 < checkedCountLabeled cfg (expectedOf rl des) (currentSetOf cfg il)
  · rw [if_pos hv]
    exact ⟨fun x hx => absurd hx (List.not_mem_nil x),
      fun L hL => absurd hL (List.not_mem_nil L)⟩
  · rw [if_neg hv]
    cases hrem : (removeLoop ora (if cfg.labelMissing ∈ currentSetOf cfg il ∧
        0 < checkedCountLabeled cfg (expectedOf rl des) (currentSetOf cfg il)
        then [cfg.labelMissing] else [])).2 with
    | some e =>
      simp only [hrem]
      exact ⟨hrm, fun L hL => absurd hL (List.not_mem_nil L)⟩
    | none =>
      simp only [hrem]
      by_cases hmiss : cfg.enableLabelMissing = true ∧
          checkedCountLabeled cfg (expectedOf rl des) (currentSetOf cfg il) = 0
      · rw [if_pos hmiss]
        simp only [apply_ite Prod.fst, apply_ite Trace.removeCalls,
          apply_ite Trace.addCalls, ite_self]
        refine ⟨hrm, fun L hL => ?_⟩
        rw [List.mem_singleton] at hL
        exact hL
      · rw [if_neg hmiss]
        by_cases hev : event = ("unlabeled").data
        · rw [if_pos hev]
          exact ⟨hrm, fun L hL => absurd hL (List.not_mem_nil L)⟩
        · rw [if_neg hev]
          by_cases hcl : changeListOf (expectedOf rl des) (currentSetOf cfg il) = []
          · rw [if_pos hcl]
            exact ⟨hrm, fun L hL => absurd hL (List.not_mem_nil L)⟩
          · rw [if_neg hcl]
            exact ⟨hrm, fun L hL => absurd hL (List.not_mem_nil L)⟩

/-- Claim C9: in every run, whatever the event, the oracle and the rest of
the inputs, every label the bot asks to remove and every label it asks to
add lies in the watch set or is the missing-label sentinel, provided the
desired mapping only names watched labels as the extractor guarantees. -/
theorem frame_untouched (cfg : Config) (rl il : List Str)
    (des : List (Str × Bool)) (author body event : Str) (ora : Oracle)
    (hdes : ∀ p ∈ des, p.1 ∈ cfg.labelWatchSet) :
    (∀ x ∈ (runAction cfg rl il des author body event ora).1.removeCalls,
      x ∈ cfg.labelWatchSet ∨ x = cfg.labelMissing) ∧
    (∀ L ∈ (runAction cfg rl il des author body event ora).1.addCalls,
      ∀ x ∈ L, x ∈ cfg.labelWatchSet ∨ x = cfg.labelMissing) := by
  unfold runAction
  split_ifs with h1 h2
  · exact frame_opened cfg rl il des author ora hdes
  · have h := frame_labeled cfg rl il des author body event ora
    refine ⟨fun x hx => Or.inr (h.1 x hx), fun L hL x hx => ?_⟩
    rw [h.2 L hL, List.mem_singleton] at hx
    exact Or.inr hx
  · exact ⟨by simp, by simp⟩

/-- Witness for C9 at a concrete labeled-path input. -/
theorem frame_untouched_witness :
    (∀ p ∈ ([(docS, true)] : List (Str × Bool)), p.1 ∈ cfg1.labelWatchSet) ∧
    ((∀ x ∈ (runAction cfg1 [docS] [docS, missS] [(docS, true)] aliceS []
        (("labeled").data) allOk).1.removeCalls,
      x ∈ cfg1.labelWatchSet ∨ x = cfg1.labelMissing) ∧
    (∀ L ∈ (runAction cfg1 [docS] [docS, missS] [(docS, true)] aliceS []
        (("labeled").data) allOk).1.addCalls,
      ∀ x ∈ L, x ∈ cfg1.labelWatchSet ∨ x = cfg1.labelMissing)) :=
  ⟨by decide,
    frame_untouched cfg1 [docS] [docS, missS] [(docS, true)] aliceS []
      (("labeled").data) allOk (by decide)⟩

theorem closeScan_length (s : Str) (a b : Str) (h : closeScan s = some (a, b)) :
    b.length < s.length := by
  induction s generalizing a b with
  | nil => simp [closeScan] at h
  | cons c r ih =>
    simp only [closeScan] at h
    split_ifs at h with h1 h2
    · rw [Option.some_inj] at h
      injection h with ha hb
      subst hb
      simp
    · rw [Option.map_eq_some'] at h
      rcases h with ⟨⟨a1, b1⟩, hcs, h3⟩
      injection h3 with h4 h5
      subst h5
      have := ih a1 b1 hcs
      simp only [List.length_cons]
      omega

theorem g2Scan_length (s : Str) (a b : Str) (h : g2Scan s = some (a, b)) :
    b.length < s.length := by
  cases s with
  | nil => simp [g2Scan] at h
  | cons c r =>
    simp only [g2Scan] at h
    split_ifs at h with h1
    · rw [Option.map_eq_some'] at h
      rcases h with ⟨⟨a1, b1⟩, hcs, h3⟩
      injection h3 with h4 h5
      subst h5
      have := closeScan_length r a1 b1 hcs
      simp only [List.length_cons]
      omega

theorem tailParse_length (s : Str) (a b : Str) (h : tailParse s = some (a, b)) :
    b.length < s.length := by
  rw [tailParse.eq_def] at h
  split at h
  · have := g2Scan_length _ _ _ h
    simp only [List.length_cons]
    omega
  · have := g2Scan_length _ _ _ h
    simp only [List.length_cons]
    omega
  · simp at h

theorem afterBrack_length (s : Str) : ∀ (acc g1 g2 r : Str),
    afterBrack acc s = some (g1, g2, r) → r.length < s.length := by
  induction s with
  | nil => intro acc g1 g2 r h; simp [afterBrack] at h
  | cons c t ih =>
    intro acc g1 g2 r h
    simp only [afterBrack] at h
    split_ifs at h with h1 h2
    · cases htp : tailParse t with
      | some q =>
        obtain ⟨q2, qr⟩ := q
        rw [htp] at h
        have hr : qr = r := congrArg (fun z => z.2.2) (Option.some.inj h)
        subst hr
        have := tailParse_length t q2 qr htp
        simp only [List.length_cons]
        omega
      | none =>
        rw [htp] at h
        have := ih (']' :: acc) g1 g2 r h
        simp only [List.length_cons]
        omega
    · have := ih (c :: acc) g1 g2 r h
      simp only [List.length_cons]
      omega

theorem matchAt_length (s : Str) (g1 g2 r : Str)
    (h : matchAt s = some (g1, g2, r)) : r.length < s.length := by
  rw [matchAt.eq_def] at h
  split at h
  · have := afterBrack_length _ [] g1 g2 r h
    simp only [List.length_cons]
    omega
  · simp at h

theorem findAllFuel_succ (f : Nat) (s : Str) :
    findAllFuel (f + 1) s =
      match matchAt s with
      | some (g1, g2, r) => Submatch.mk g1 g2 :: findAllFuel f r
      | none =>
        match s with
        | [] => []
        | _ :: t => findAllFuel f t := rfl

theorem findAllFuel_irrel (f : Nat) : ∀ (g : Nat) (s : Str),
    s.length < f → s.length < g → findAllFuel f s = findAllFuel g s := by
  induction f with
  | zero => intro g s h1 h2; omega
  | succ f ih =>
    intro g s h1 h2
    cases g with
    | zero => omega
    | succ g =>
      rw [findAllFuel_succ f s, findAllFuel_succ g s]
      cases hm : matchAt s with
      | some x =>
        obtain ⟨g1, g2, r⟩ := x
        have hr := matchAt_length s g1 g2 r hm
        show Submatch.mk g1 g2 :: findAllFuel f r = Submatch.mk g1 g2 :: findAllFuel g r
        rw [ih g r (by omega) (by omega)]
      | none =>
        cases s with
        | nil => rfl
        | cons c t =>
          show findAllFuel f t = findAllFuel g t
          simp only [List.length_cons] at h1 h2
          exact ih g t (by omega) (by omega)

theorem findAll_match (s : Str) (g1 g2 r : Str)
    (h : matchAt s = some (g1, g2, r)) :
    findAll s = Submatch.mk g1 g2 :: findAll r := by
  have hr := matchAt_length s g1 g2 r h
  show findAllFuel (s.length + 1) s = _
  rw [findAllFuel_succ s.length s, h]
  show Submatch.mk g1 g2 :: findAllFuel s.length r = Submatch.mk g1 g2 :: findAll r
  rw [findAllFuel_irrel s.length (r.length + 1) r (by omega) (by omega)]
  rfl

theorem findAll_cons_none (c : Char) (t : Str) (h : matchAt (c :: t) = none) :
    findAll (c :: t) = findAll t := by
  show findAllFuel ((c :: t).length + 1) (c :: t) = findAll t
  have hlen : (c :: t).length + 1 = (t.length + 1) + 1 := by simp
  rw [hlen, findAllFuel_succ (t.length + 1) (c :: t), h]
  rfl

theorem matchAt_none (s : Str) (h : ∀ t : Str, s ≠ '-' :: ' ' :: '[' :: t) :
    matchAt s = none := by
  rw [matchAt.eq_def]
  split
  · exact absurd rfl (h _)
  · rfl

theorem closeScan_name (n : Str) (rest : Str)
    (hn : ∀ c ∈ n, c ≠ '`' ∧ c ≠ '\n') :
    closeScan (n ++ '`' :: rest) = some (n, rest) := by
  induction n with
  | nil => simp [closeScan]
  | cons c n' ih =>
    have hc := hn c (List.mem_cons_self _ _)
    rw [List.cons_append]
    simp only [closeScan, if_neg hc.1, if_neg hc.2]
    rw [ih (fun x hx => hn x (List.mem_cons_of_mem _ hx))]
    rfl

theorem g2Scan_name (n : Str) (rest : Str)
    (hne : n ≠ []) (hn : ∀ c ∈ n, c ≠ '`' ∧ c ≠ '\n') :
    g2Scan (n ++ '`' :: rest) = some (n, rest) := by
  cases n with
  | nil => exact absurd rfl hne
  | cons c n' =>
    have hc := hn c (List.mem_cons_self _ _)
    rw [List.cons_append]
    simp only [g2Scan, if_neg hc.2]
    rw [closeScan_name n' rest (fun x hx => hn x (List.mem_cons_of_mem _ hx))]
    rfl

theorem tailParse_sp (u : Str) : tailParse (' ' :: '`' :: u) = g2Scan u := rfl

theorem matchAt_line (m : Char) (n : Str) (rest : Str)
    (hm1 : ¬ m = '\n') (hm2 : ¬ m = ']')
    (hne : n ≠ []) (hn : ∀ c ∈ n, c ≠ '`' ∧ c ≠ '\n') :
    matchAt ('-' :: ' ' :: '[' :: m :: ']' :: ' ' :: '`' :: (n ++ '`' :: rest)) =
      some ([m], n, rest) := by
  show afterBrack [] (m :: ']' :: ' ' :: '`' :: (n ++ '`' :: rest)) = _
  simp only [afterBrack, if_neg hm1, if_neg hm2]
  rw [tailParse_sp, g2Scan_name n rest hne hn]
  simp

theorem findAll_skip (u v : Str) (hu : ∀ c ∈ u, c ≠ '[' ∧ c ≠ '\n') :
    findAll (u ++ '\n' :: v) = findAll v := by
  induction u with
  | nil =>
    have hm : matchAt ('\n' :: v) = none := by
      apply matchAt_none
      intro t hc
      injection hc with h1 _
      exact absurd h1 (by decide)
    rw [List.nil_append, findAll_cons_none _ _ hm]
  | cons c u' ih =>
    have hm : matchAt (c :: (u' ++ '\n' :: v)) = none := by
      apply matchAt_none
      intro t hc
      injection hc with h1 h2
      cases u' with
      | nil =>
        rw [List.nil_append] at h2
        injection h2 with h3 _
        exact absurd h3 (by decide)
      | cons d u'' =>
        rw [List.cons_append] at h2
        injection h2 with h3 h4
        cases u'' with
        | nil =>
          rw [List.nil_append] at h4
          injection h4 with h5 _
          exact absurd h5 (by decide)
        | cons e u3 =>
          rw [List.cons_append] at h4
          injection h4 with h5 _
          exact absurd h5 (hu e (by simp)).1
    rw [List.cons_append, findAll_cons_none _ _ hm]
    exact ih (fun x hx => hu x (List.mem_cons_of_mem _ hx))

theorem findAll_tail_none (u : Str) (hu : ∀ c ∈ u, c ≠ '[') :
    findAll u = [] := by
  induction u with
  | nil => rfl
  | cons c u' ih =>
    have hm : matchAt (c :: u') = none := by
      apply matchAt_none
      intro t hc
      injection hc with h1 h2
      cases u' with
      | nil => exact absurd h2 (by simp)
      | cons d u'' =>
        injection h2 with h3 h4
        cases u'' with
        | nil => exact absurd h4 (by simp)
        | cons e u3 =>
          injection h4 with h5 _
          exact absurd h5 (hu e (by simp))
    rw [findAll_cons_none _ _ hm]
    exact ih (fun x hx => hu x (List.mem_cons_of_mem _ hx))

theorem lineOf_box_eq (n : Str) (c : Bool) (suf : Str) :
    lineOf (CItem.box n c suf) =
      '-' :: ' ' :: '[' :: markChar c :: ']' :: ' ' :: '`' :: (n ++ '`' :: suf) := rfl

theorem markChar_ne_nl (c : Bool) : ¬ markChar c = '\n' := by
  cases c <;> decide

theorem markChar_ne_rb (c : Bool) : ¬ markChar c = ']' := by
  cases c <;> decide

theorem findAll_box (n : Str) (c : Bool) (suf : Str) (v : Str)
    (hn : wfName n) (hsuf : wfTail suf) :
    findAll (lineOf (CItem.box n c suf) ++ '\n' :: v) =
      Submatch.mk [markChar c] n :: findAll v := by
  have hsh : lineOf (CItem.box n c suf) ++ '\n' :: v =
      '-' :: ' ' :: '[' :: markChar c :: ']' :: ' ' :: '`' :: (n ++ '`' :: (suf ++ '\n' :: v)) := by
    rw [lineOf_box_eq]
    simp
  rw [hsh]
  rw [findAll_match _ _ _ _ (matchAt_line (markChar c) n (suf ++ '\n' :: v)
    (markChar_ne_nl c) (markChar_ne_rb c) hn.1
    (fun x hx => ⟨(hn.2.1 x hx).1, (hn.2.1 x hx).2.2.1⟩))]
  rw [findAll_skip suf v hsuf]

theorem findAll_box_last (n : Str) (c : Bool) (suf : Str)
    (hn : wfName n) (hsuf : wfTail suf) :
    findAll (lineOf (CItem.box n c suf)) = [Submatch.mk [markChar c] n] := by
  rw [lineOf_box_eq]
  rw [findAll_match _ _ _ _ (matchAt_line (markChar c) n suf
    (markChar_ne_nl c) (markChar_ne_rb c) hn.1
    (fun x hx => ⟨(hn.2.1 x hx).1, (hn.2.1 x hx).2.2.1⟩))]
  rw [findAll_tail_none suf (fun x hx => (hsuf x hx).1)]

theorem findAll_render (its : List CItem) (h : ∀ it ∈ its, wfItem it) :
    findAll (renderC its) =
      (boxesOf its).map (fun p => Submatch.mk [markChar p.2] p.1) := by
  induction its with
  | nil => rfl
  | cons it rest ih =>
    cases rest with
    | nil =>
      cases it with
      | filler s =>
        have hw := h _ (List.mem_cons_self _ _)
        show findAll s = []
        exact findAll_tail_none s (fun ch hch => (hw ch hch).1)
      | box n c suf =>
        have hw := h _ (List.mem_cons_self _ _)
        show findAll (lineOf (CItem.box n c suf)) = [Submatch.mk [markChar c] n]
        exact findAll_box_last n c suf hw.1 hw.2
    | cons it2 rest2 =>
      have hr : renderC (it :: it2 :: rest2) =
          lineOf it ++ '\n' :: renderC (it2 :: rest2) := rfl
      rw [hr]
      cases it with
      | filler s =>
        have hw := h _ (List.mem_cons_self _ _)
        show findAll (s ++ '\n' :: renderC (it2 :: rest2)) = _
        rw [findAll_skip s _ (fun ch hch => hw ch hch)]
        exact ih (fun x hx => h x (List.mem_cons_of_mem _ hx))
      | box n c suf =>
        have hw := h _ (List.mem_cons_self _ _)
        rw [findAll_box n c suf _ hw.1 hw.2]
        rw [ih (fun x hx => h x (List.mem_cons_of_mem _ hx))]
        rfl

theorem containsSub_iff (s p : Str) :
    containsSub s p = true ↔ ∃ t, t <:+ s ∧ p <+: t := by
  induction s with
  | nil =>
    rw [containsSub]
    split_ifs with h1
    · simp only [true_iff]
      exact ⟨[], List.suffix_rfl, List.isPrefixOf_iff_prefix.mp h1⟩
    · simp only [false_iff]
      rintro ⟨t, ht, hp⟩
      rw [List.suffix_nil] at ht
      subst ht
      exact h1 (List.isPrefixOf_iff_prefix.mpr hp)
  | cons c s' ih =>
    rw [containsSub]
    split_ifs with h1
    · simp only [true_iff]
      exact ⟨c :: s', List.suffix_rfl, List.isPrefixOf_iff_prefix.mp h1⟩
    · rw [ih]
      constructor
      · rintro ⟨t, ht, hp⟩
        exact ⟨t, ht.trans (List.suffix_cons c s'), hp⟩
      · rintro ⟨t, ht, hp⟩
        rcases List.suffix_cons_iff.mp ht with h2 | h2
        · subst h2
          exact absurd (List.isPrefixOf_iff_prefix.mpr hp) h1
        · exact ⟨t, h2, hp⟩

theorem replace1_pfx (s p r : Str) (h : p <+: s) :
    replace1 s p r = r ++ s.drop p.length := by
  cases s with
  | nil =>
    rw [replace1]
    rw [if_pos (List.isPrefixOf_iff_prefix.mpr h)]
  | cons c t =>
    rw [replace1]
    rw [if_pos (List.isPrefixOf_iff_prefix.mpr h)]

theorem replace1_not_prefix_cons (c : Char) (t p r : Str) (h : ¬ p <+: (c :: t)) :
    replace1 (c :: t) p r = c :: replace1 t p r := by
  rw [replace1]
  rw [if_neg (fun hc => h (List.isPrefixOf_iff_prefix.mp hc))]

theorem replace1_append (a b p d : Str)
    (h : ∀ t, t <:+ (a ++ b) → b.length < t.length → ¬ p <+: t) :
    replace1 (a ++ b) p d = a ++ replace1 b p d := by
  induction a with
  | nil => simp
  | cons c a' ih =>
    rw [List.cons_append]
    have hnp : ¬ p <+: (c :: (a' ++ b)) := by
      apply h ((c :: a') ++ b)
      · rw [List.cons_append]
      · simp only [List.length_append, List.length_cons]
        omega
    rw [replace1_not_prefix_cons _ _ _ _ hnp]
    rw [ih (fun t ht hlen => h t (ht.trans (by rw [List.cons_append]; exact List.suffix_cons c (a' ++ b))) hlen)]
    rw [List.cons_append]

theorem prefix_across_nl : ∀ (a P v : Str), P <+: (a ++ '\n' :: v) →
    a.length < P.length → '\n' ∈ P := by
  intro a
  induction a with
  | nil =>
    intro P v hp hlen
    cases P with
    | nil => simp at hlen
    | cons q P' =>
      rw [List.nil_append, List.cons_prefix_cons] at hp
      rw [← hp.1]
      exact List.mem_cons_self _ _
  | cons c a' ih =>
    intro P v hp hlen
    cases P with
    | nil => simp at hlen
    | cons q P' =>
      rw [List.cons_append, List.cons_prefix_cons] at hp
      simp only [List.length_cons] at hlen
      exact List.mem_cons_of_mem _ (ih P' v hp.2 (by omega))

theorem prefix_of_append (P a z : Str) (h : P <+: a ++ z)
    (hl : P.length ≤ a.length) : P <+: a := by
  have h1 := List.prefix_iff_eq_take.mp h
  rw [List.take_append_of_le_length hl] at h1
  rw [h1]
  exact List.take_prefix _ _

theorem occ_span (P : Str) (hnl : '\n' ∉ P) : ∀ (a v t : Str),
    t <:+ (a ++ '\n' :: v) → v.length < t.length → P <+: t →
    ∃ x, x <:+ a ∧ P <+: x := by
  intro a
  induction a with
  | nil =>
    intro v t ht hlen hp
    rcases List.suffix_cons_iff.mp ht with h2 | h2
    · subst h2
      cases P with
      | nil => exact ⟨[], List.suffix_rfl, List.nil_prefix⟩
      | cons q P' =>
        rw [List.cons_prefix_cons] at hp
        rw [← hp.1] at hnl
        exact absurd (List.mem_cons_self _ _) hnl
    · have := List.IsSuffix.length_le h2
      omega
  | cons c a' ih =>
    intro v t ht hlen hp
    rw [List.cons_append] at ht
    rcases List.suffix_cons_iff.mp ht with h2 | h2
    · subst h2
      by_cases hl : P.length ≤ (c :: a').length
      · refine ⟨c :: a', List.suffix_rfl, ?_⟩
        apply prefix_of_append P (c :: a') ('\n' :: v) _ hl
        rw [List.cons_append]
        exact hp
      · simp only [List.length_cons] at hl
        have : '\n' ∈ P := by
          apply prefix_across_nl (c :: a') P v
          · rw [List.cons_append]
            exact hp
          · simp only [List.length_cons]
            omega
        exact absurd this hnl
    · obtain ⟨x, hx, hpx⟩ := ih v t h2 hlen hp
      exact ⟨x, hx.trans (List.suffix_cons c a'), hpx⟩

theorem lineOf_box_split (m : Str) (b : Bool) (suf : Str) :
    lineOf (CItem.box m b suf) = lineOf (CItem.box m b []) ++ suf := by
  rw [lineOf_box_eq, lineOf_box_eq]
  simp

theorem lb_mem_line (m : Str) (b : Bool) : '[' ∈ lineOf (CItem.box m b []) := by
  rw [lineOf_box_eq]
  simp

theorem nl_not_mem_line (m : Str) (b : Bool) (hm : wfName m) :
    '\n' ∉ lineOf (CItem.box m b []) := by
  rw [lineOf_box_eq]
  intro hmem
  simp only [List.mem_cons, List.mem_append, List.mem_singleton] at hmem
  rcases hmem with h | h | h | h | h | h | h | h
  · exact absurd h.symm (by decide)
  · exact absurd h.symm (by decide)
  · exact absurd h.symm (by decide)
  · cases b <;> simp [markChar] at h
  · exact absurd h.symm (by decide)
  · exact absurd h.symm (by decide)
  · exact absurd h.symm (by decide)
  · rcases h with h | h
    · exact (hm.2.1 '\n' h).2.2.1 rfl
    · simp at h

theorem tick_prefix_name : ∀ (m n' z : Str), (∀ c ∈ m, c ≠ '`') →
    (∀ c ∈ n', c ≠ '`') → (m ++ ['`']) <+: (n' ++ '`' :: z) → m = n' := by
  intro m
  induction m with
  | nil =>
    intro n' z hm hn hp
    cases n' with
    | nil => rfl
    | cons d n'' =>
      rw [List.nil_append, List.cons_append, List.cons_prefix_cons] at hp
      exact absurd hp.1.symm (hn d (List.mem_cons_self _ _))
  | cons a m' ih =>
    intro n' z hm hn hp
    cases n' with
    | nil =>
      rw [List.cons_append, List.nil_append, List.cons_prefix_cons] at hp
      exact absurd hp.1 (hm a (List.mem_cons_self _ _))
    | cons d n'' =>
      rw [List.cons_append, List.cons_append, List.cons_prefix_cons] at hp
      rw [hp.1, ih n'' z (fun x hx => hm x (List.mem_cons_of_mem _ hx))
        (fun x hx => hn x (List.mem_cons_of_mem _ hx)) hp.2]

theorem occ_line_filler (m : Str) (b : Bool) (s x : Str) (hs : wfTail s)
    (hx : x <:+ s) (hp : lineOf (CItem.box m b []) <+: x) : False := by
  have h1 : '[' ∈ x := hp.subset (lb_mem_line m b)
  have h2 : '[' ∈ s := hx.subset h1
  exact (hs '[' h2).1 rfl

theorem markChar_inj (b c : Bool) (h : markChar b = markChar c) : b = c := by
  cases b <;> cases c <;> simp [markChar] at h ⊢

theorem occ_line_box (m : Str) (b : Bool) (n' : Str) (c' : Bool) (suf' x : Str)
    (hm : wfName m) (hn' : wfName n') (hsuf' : wfTail suf')
    (hx : x <:+ lineOf (CItem.box n' c' suf'))
    (hp : lineOf (CItem.box m b []) <+: x) :
    m = n' ∧ b = c' := by
  rw [lineOf_box_eq] at hx
  rw [lineOf_box_eq] at hp
  rcases List.suffix_cons_iff.mp hx with h1 | hx
  · subst h1
    simp only [List.cons_prefix_cons] at hp
    obtain ⟨-, -, -, hmc, -, -, -, hpp⟩ := hp
    refine ⟨?_, markChar_inj b c' hmc⟩
    exact tick_prefix_name m n' suf' (fun z hz => (hm.2.1 z hz).1)
      (fun z hz => (hn'.2.1 z hz).1) hpp
  rcases List.suffix_cons_iff.mp hx with h1 | hx
  · subst h1
    rw [List.cons_prefix_cons] at hp
    exact absurd hp.1 (by decide)
  rcases List.suffix_cons_iff.mp hx with h1 | hx
  · subst h1
    rw [List.cons_prefix_cons] at hp
    exact absurd hp.1 (by decide)
  rcases List.suffix_cons_iff.mp hx with h1 | hx
  · subst h1
    rw [List.cons_prefix_cons] at hp
    have := hp.1
    cases c' <;> simp [markChar] at this
  rcases List.suffix_cons_iff.mp hx with h1 | hx
  · subst h1
    rw [List.cons_prefix_cons] at hp
    exact absurd hp.1 (by decide)
  rcases List.suffix_cons_iff.mp hx with h1 | hx
  · subst h1
    rw [List.cons_prefix_cons] at hp
    exact absurd hp.1 (by decide)
  rcases List.suffix_cons_iff.mp hx with h1 | hx
  · subst h1
    rw [List.cons_prefix_cons] at hp
    exact absurd hp.1 (by decide)
  exfalso
  have h1 : '[' ∈ x := hp.subset (by rw [← lineOf_box_eq]; exact lb_mem_line m b)
  have h2 : '[' ∈ n' ++ '`' :: suf' := hx.subset h1
  rcases List.mem_append.mp h2 with h3 | h3
  · exact (hn'.2.1 '[' h3).2.1 rfl
  · rcases List.mem_cons.mp h3 with h4 | h4
    · exact absurd h4 (by decide)
    · exact ( hsuf' '[' h4).1 rfl

theorem boxesOf_mem_iff (its : List CItem) (m : Str) (b : Bool) :
    (m, b) ∈ boxesOf its ↔ ∃ suf, CItem.box m b suf ∈ its := by
  induction its with
  | nil => simp [boxesOf]
  | cons it rest ih =>
    cases it with
    | filler s =>
      rw [boxesOf]
      rw [ih]
      constructor
      · rintro ⟨suf, hsuf⟩
        exact ⟨suf, List.mem_cons_of_mem _ hsuf⟩
      · rintro ⟨suf, hsuf⟩
        rcases List.mem_cons.mp hsuf with h | h
        · exact absurd h (by simp)
        · exact ⟨suf, h⟩
    | box n c suf =>
      rw [boxesOf]
      constructor
      · intro h
        rcases List.mem_cons.mp h with h1 | h1
        · injection h1 with h2 h3
          subst h2
          subst h3
          exact ⟨suf, List.mem_cons_self _ _⟩
        · obtain ⟨suf', hs⟩ := ih.mp h1
          exact ⟨suf', List.mem_cons_of_mem _ hs⟩
      · rintro ⟨suf', hs⟩
        rcases List.mem_cons.mp hs with h1 | h1
        · injection h1 with h2 h3 h4
          subst h2
          subst h3
          exact List.mem_cons_self _ _
        · exact List.mem_cons_of_mem _ (ih.mpr ⟨suf', h1⟩)

theorem occ_render (its : List CItem) (m : Str) (b : Bool)
    (hwf : ∀ it ∈ its, wfItem it) (hm : wfName m) :
    ∀ t, t <:+ renderC its → lineOf (CItem.box m b []) <+: t →
    ∃ suf, CItem.box m b suf ∈ its := by
  induction its with
  | nil =>
    intro t ht hp
    have ht2 : t = [] := by
      have ht' : t <:+ ([] : Str) := ht
      exact List.suffix_nil.mp ht'
    subst ht2
    rw [lineOf_box_eq] at hp
    have := List.prefix_nil.mp hp
    simp at this
  | cons it rest ih =>
    intro t ht hp
    cases rest with
    | nil =>
      cases it with
      | filler s =>
        exact absurd hp (fun hc =>
          occ_line_filler m b s t (hwf _ (List.mem_cons_self _ _)) ht hc)
      | box n' c' suf' =>
        have hw := hwf _ (List.mem_cons_self _ _)
        obtain ⟨h1, h2⟩ := occ_line_box m b n' c' suf' t hm hw.1 hw.2 ht hp
        subst h1
        subst h2
        exact ⟨suf', List.mem_cons_self _ _⟩
    | cons it2 rest2 =>
      have hr : renderC (it :: it2 :: rest2) =
          lineOf it ++ '\n' :: renderC (it2 :: rest2) := rfl
      rw [hr] at ht
      by_cases hlen : (renderC (it2 :: rest2)).length < t.length
      · obtain ⟨x, hx, hpx⟩ := occ_span (lineOf (CItem.box m b []))
          (nl_not_mem_line m b hm) (lineOf it) (renderC (it2 :: rest2)) t ht hlen hp
        cases it with
        | filler s =>
          exact absurd hpx (fun hc =>
            occ_line_filler m b s x (hwf _ (List.mem_cons_self _ _)) hx hc)
        | box n' c' suf' =>
          have hw := hwf _ (List.mem_cons_self _ _)
          obtain ⟨h1, h2⟩ := occ_line_box m b n' c' suf' x hm hw.1 hw.2 hx hpx
          subst h1
          subst h2
          exact ⟨suf', List.mem_cons_self _ _⟩
      · have hv : renderC (it2 :: rest2) <:+ lineOf it ++ '\n' :: renderC (it2 :: rest2) :=
          (List.suffix_cons '\n' _).trans (List.suffix_append _ _)
        rcases List.suffix_or_suffix_of_suffix ht hv with h2 | h2
        · obtain ⟨suf, hs⟩ := ih (fun x hx => hwf x (List.mem_cons_of_mem _ hx)) t h2 hp
          exact ⟨suf, List.mem_cons_of_mem _ hs⟩
        · have hle := List.IsSuffix.length_le h2
          have heq : renderC (it2 :: rest2) = t := List.IsSuffix.eq_of_length h2 (by omega)
          obtain ⟨suf, hs⟩ := ih (fun x hx => hwf x (List.mem_cons_of_mem _ hx)) t
            (heq ▸ List.suffix_rfl) hp
          exact ⟨suf, List.mem_cons_of_mem _ hs⟩

theorem render_contains_box (its : List CItem) (m : Str) (b : Bool)
    (h : ∃ suf, CItem.box m b suf ∈ its) :
    ∃ t, t <:+ renderC its ∧ lineOf (CItem.box m b []) <+: t := by
  obtain ⟨suf, hmem⟩ := h
  induction its with
  | nil => simp at hmem
  | cons it rest ih =>
    rcases List.mem_cons.mp hmem with h1 | h1
    · subst h1
      cases rest with
      | nil =>
        refine ⟨renderC [CItem.box m b suf], List.suffix_rfl, ?_⟩
        show lineOf (CItem.box m b []) <+: lineOf (CItem.box m b suf)
        rw [lineOf_box_split m b suf]
        exact List.prefix_append _ _
      | cons it2 rest2 =>
        refine ⟨renderC (CItem.box m b suf :: it2 :: rest2), List.suffix_rfl, ?_⟩
        show lineOf (CItem.box m b []) <+:
          lineOf (CItem.box m b suf) ++ '\n' :: renderC (it2 :: rest2)
        rw [lineOf_box_split m b suf, List.append_assoc]
        exact List.prefix_append _ _
    · obtain ⟨t, ht, hpt⟩ := ih h1
      cases rest with
      | nil => simp at h1
      | cons it2 rest2 =>
        refine ⟨t, ?_, hpt⟩
        have hr : renderC (it :: it2 :: rest2) =
            lineOf it ++ '\n' :: renderC (it2 :: rest2) := rfl
        rw [hr]
        exact ht.trans ((List.suffix_cons '\n' _).trans (List.suffix_append _ _))

theorem contains_render (its : List CItem) (m : Str) (b : Bool)
    (hwf : ∀ it ∈ its, wfItem it) (hm : wfName m) :
    containsSub (renderC its) (lineOf (CItem.box m b [])) = true ↔
      (m, b) ∈ boxesOf its := by
  rw [containsSub_iff, boxesOf_mem_iff]
  constructor
  · rintro ⟨t, ht, hp⟩
    exact occ_render its m b hwf hm t ht hp
  · exact render_contains_box its m b

theorem replace1_skip_line (it : CItem) (v : Str) (m : Str) (b : Bool) (d : Str)
    (hw : wfItem it) (hm : wfName m)
    (hnot : ∀ suf, it ≠ CItem.box m b suf) :
    replace1 (lineOf it ++ '\n' :: v) (lineOf (CItem.box m b [])) d =
      lineOf it ++ '\n' :: replace1 v (lineOf (CItem.box m b [])) d := by
  have hno : ∀ t, t <:+ ((lineOf it ++ ['\n']) ++ v) → v.length < t.length →
      ¬ lineOf (CItem.box m b []) <+: t := by
    intro t ht hlen hp
    have ht2 : t <:+ lineOf it ++ '\n' :: v := by
      rw [show lineOf it ++ '\n' :: v = (lineOf it ++ ['\n']) ++ v from by simp]
      exact ht
    obtain ⟨x, hx, hpx⟩ := occ_span _ (nl_not_mem_line m b hm) (lineOf it) v t ht2 hlen hp
    cases it with
    | filler s => exact occ_line_filler m b s x hw hx hpx
    | box n' c' suf' =>
      obtain ⟨h1, h2⟩ := occ_line_box m b n' c' suf' x hm hw.1 hw.2 hx hpx
      exact hnot suf' (by rw [h1, h2])
  rw [show lineOf it ++ '\n' :: v = (lineOf it ++ ['\n']) ++ v from by simp,
    replace1_append _ _ _ _ hno]
  simp

theorem renderC_cons (it : CItem) (L : List CItem) (h : L ≠ []) :
    renderC (it :: L) = lineOf it ++ '\n' :: renderC L := by
  cases L with
  | nil => exact absurd rfl h
  | cons y ys => rfl

theorem updBox_ne_nil (m : Str) (a b : Bool) (L : List CItem) (h : L ≠ []) :
    updBox m a b L ≠ [] := by
  cases L with
  | nil => exact absurd rfl h
  | cons x xs =>
    cases x with
    | box n c suf =>
      rw [updBox]
      split_ifs <;> simp
    | filler s =>
      rw [updBox]
      simp

theorem replace1_render (its : List CItem) (m : Str) (b b' : Bool)
    (hwf : ∀ it ∈ its, wfItem it) (hm : wfName m)
    (hfirst : mapGet (boxesOf its) m = some b) :
    replace1 (renderC its) (lineOf (CItem.box m b []))
      (lineOf (CItem.box m b' [])) = renderC (updBox m b b' its) := by
  induction its with
  | nil => simp [boxesOf, mapGet] at hfirst
  | cons it rest ih =>
    cases it with
    | box n' c' suf' =>
      by_cases hnm : n' = m
      · subst hnm
        have hcb : c' = b := by
          have h2 : mapGet ((n', c') :: boxesOf rest) n' = some b := hfirst
          simp [mapGet] at h2
          exact h2
        subst hcb
        have hupd : updBox n' c' b' (CItem.box n' c' suf' :: rest) =
            CItem.box n' b' suf' :: rest := by
          rw [updBox, if_pos ⟨rfl, rfl⟩]
        rw [hupd]
        cases rest with
        | nil =>
          show replace1 (lineOf (CItem.box n' c' suf')) _ _ =
            lineOf (CItem.box n' b' suf')
          rw [lineOf_box_split n' c' suf']
          rw [replace1_pfx _ _ _ (List.prefix_append _ _)]
          rw [List.drop_left]
          rw [lineOf_box_split n' b' suf']
        | cons it2 rest2 =>
          show replace1 (lineOf (CItem.box n' c' suf') ++ '\n' ::
              renderC (it2 :: rest2)) _ _ =
            lineOf (CItem.box n' b' suf') ++ '\n' :: renderC (it2 :: rest2)
          rw [lineOf_box_split n' c' suf', List.append_assoc]
          rw [replace1_pfx _ _ _ (List.prefix_append _ _)]
          rw [List.drop_left]
          rw [lineOf_box_split n' b' suf', List.append_assoc]
      · have hfirst2 : mapGet (boxesOf rest) m = some b := by
          have h2 : mapGet ((n', c') :: boxesOf rest) m = some b := hfirst
          rw [mapGet, if_neg hnm] at h2
          exact h2
        have hupd : updBox m b b' (CItem.box n' c' suf' :: rest) =
            CItem.box n' c' suf' :: updBox m b b' rest := by
          rw [updBox, if_neg (fun hc => hnm hc.1)]
        rw [hupd]
        cases rest with
        | nil => simp [boxesOf, mapGet] at hfirst2
        | cons it2 rest2 =>
          show replace1 (lineOf (CItem.box n' c' suf') ++ '\n' ::
              renderC (it2 :: rest2)) _ _ = _
          rw [replace1_skip_line (CItem.box n' c' suf') _ m b _
            (hwf _ (List.mem_cons_self _ _)) hm
            (fun suf hc => by injection hc with h1 h2 h3; exact hnm h1)]
          rw [ih (fun x hx => hwf x (List.mem_cons_of_mem _ hx)) hfirst2]
          rw [renderC_cons _ _ (updBox_ne_nil m b b' (it2 :: rest2) (by simp))]
    | filler s =>
      have hfirst2 : mapGet (boxesOf rest) m = some b := hfirst
      have hupd : updBox m b b' (CItem.filler s :: rest) =
          CItem.filler s :: updBox m b b' rest := by
        rw [updBox]
      rw [hupd]
      cases rest with
      | nil => simp [boxesOf, mapGet] at hfirst2
      | cons it2 rest2 =>
        show replace1 (lineOf (CItem.filler s) ++ '\n' ::
            renderC (it2 :: rest2)) _ _ = _
        rw [replace1_skip_line (CItem.filler s) _ m b _
          (hwf _ (List.mem_cons_self _ _)) hm
          (fun suf hc => CItem.noConfusion hc)]
        rw [ih (fun x hx => hwf x (List.mem_cons_of_mem _ hx)) hfirst2]
        rw [renderC_cons _ _ (updBox_ne_nil m b b' (it2 :: rest2) (by simp))]

theorem renderC_addCR (its : List CItem) (h : its ≠ []) :
    renderC (addCR its) = renderC its ++ ['\r'] := by
  induction its with
  | nil => exact absurd rfl h
  | cons it rest ih =>
    cases rest with
    | nil =>
      cases it with
      | filler s =>
        show renderC [CItem.filler (s ++ ['\r'])] = renderC [CItem.filler s] ++ ['\r']
        rfl
      | box n c suf =>
        show lineOf (CItem.box n c (suf ++ ['\r'])) =
          lineOf (CItem.box n c suf) ++ ['\r']
        rw [lineOf_box_split n c (suf ++ ['\r']), lineOf_box_split n c suf]
        simp
    | cons it2 rest2 =>
      have ha : addCR (it :: it2 :: rest2) = it :: addCR (it2 :: rest2) := by
        cases it <;> rfl
      rw [ha]
      have hne : addCR (it2 :: rest2) ≠ [] := by
        cases it2 with
        | filler s => cases rest2 <;> simp [addCR]
        | box n c suf => cases rest2 <;> simp [addCR]
      rw [renderC_cons _ _ hne, ih (by simp)]
      have hr : renderC (it :: it2 :: rest2) =
          lineOf it ++ '\n' :: renderC (it2 :: rest2) := rfl
      rw [hr]
      simp

theorem renderC_append2 (a b : List CItem) (ha : a ≠ []) (hb : b ≠ []) :
    renderC (a ++ b) = renderC a ++ '\n' :: renderC b := by
  induction a with
  | nil => exact absurd rfl ha
  | cons it a' ih =>
    cases a' with
    | nil =>
      rw [List.singleton_append, renderC_cons it b hb]
      rfl
    | cons it2 a2 =>
      rw [List.cons_append]
      rw [renderC_cons it ((it2 :: a2) ++ b) (by simp)]
      rw [ih (by simp)]
      have hr : renderC (it :: it2 :: a2) =
          lineOf it ++ '\n' :: renderC (it2 :: a2) := rfl
      rw [hr]
      simp

theorem appendBox_render (its : List CItem) (m : Str) (c : Bool) (h : its ≠ []) :
    renderC its ++ ('\r' :: '\n' :: lineOf (CItem.box m c [])) ++ ('\r' :: '\n' :: []) =
      renderC (appendBox its m c) := by
  unfold appendBox
  rw [renderC_append2 (addCR its) [CItem.box m c ['\r'], CItem.filler []] ?h1 (by simp)]
  case h1 =>
    cases its with
    | nil => exact absurd rfl h
    | cons it rest =>
      cases it with
      | filler s => cases rest <;> simp [addCR]
      | box n cc suf => cases rest <;> simp [addCR]
  rw [renderC_addCR its h]
  have h2 : renderC [CItem.box m c ['\r'], CItem.filler []] =
      lineOf (CItem.box m c ['\r']) ++ '\n' :: [] := rfl
  rw [h2, lineOf_box_split m c ['\r']]
  simp

theorem box_src_dst (m : Str) (c : Bool) :
    ((if c then uncheckedLine m else checkedLine m) = lineOf (CItem.box m (!c) [])) ∧
    ((if c then checkedLine m else uncheckedLine m) = lineOf (CItem.box m c [])) := by
  cases c <;> exact ⟨rfl, rfl⟩

theorem applyEdit_correspond (its : List CItem) (m : Str) (c : Bool)
    (hwf : ∀ it ∈ its, wfItem it) (hm : wfName m)
    (hnd : ((boxesOf its).map Prod.fst).Nodup) (hne : its ≠ []) :
    applyEdit (renderC its) (m, c) = renderC (applyEditC its (m, c)) := by
  simp only [applyEdit, applyEditC]
  rw [(box_src_dst m c).1, (box_src_dst m c).2]
  by_cases hin : (m, !c) ∈ boxesOf its
  · rw [if_pos ((contains_render its m (!c) hwf hm).mpr hin)]
    rw [if_pos hin]
    exact replace1_render its m (!c) c hwf hm
      ((mapGet_eq_some_iff (boxesOf its) hnd m (!c)).mpr hin)
  · rw [if_neg (fun hc => hin ((contains_render its m (!c) hwf hm).mp hc))]
    rw [if_neg hin]
    exact appendBox_render its m c hne

theorem boxesOf_addCR (its : List CItem) : boxesOf (addCR its) = boxesOf its := by
  induction its with
  | nil => rfl
  | cons it rest ih =>
    cases rest with
    | nil => cases it <;> rfl
    | cons it2 rest2 =>
      have ha : addCR (it :: it2 :: rest2) = it :: addCR (it2 :: rest2) := by
        cases it <;> rfl
      rw [ha]
      cases it with
      | filler s =>
        show boxesOf (addCR (it2 :: rest2)) = boxesOf (it2 :: rest2)
        exact ih
      | box n c suf =>
        show (n, c) :: boxesOf (addCR (it2 :: rest2)) = (n, c) :: boxesOf (it2 :: rest2)
        rw [ih]

theorem boxesOf_append (a b : List CItem) :
    boxesOf (a ++ b) = boxesOf a ++ boxesOf b := by
  induction a with
  | nil => rfl
  | cons it a' ih =>
    cases it with
    | filler s =>
      show boxesOf (a' ++ b) = boxesOf a' ++ boxesOf b
      exact ih
    | box n c suf =>
      show (n, c) :: boxesOf (a' ++ b) = ((n, c) :: boxesOf a') ++ boxesOf b
      rw [ih, List.cons_append]

theorem boxesOf_appendBox (its : List CItem) (m : Str) (c : Bool) :
    boxesOf (appendBox its m c) = boxesOf its ++ [(m, c)] := by
  unfold appendBox
  rw [boxesOf_append, boxesOf_addCR]
  rfl

theorem boxNames_updBox (its : List CItem) (m : Str) (fromC toC : Bool) :
    (boxesOf (updBox m fromC toC its)).map Prod.fst =
      (boxesOf its).map Prod.fst := by
  induction its with
  | nil => rfl
  | cons it rest ih =>
    cases it with
    | filler s =>
      show (boxesOf (updBox m fromC toC rest)).map Prod.fst = _
      exact ih
    | box n c suf =>
      rw [updBox]
      split_ifs with h
      · show m :: (boxesOf rest).map Prod.fst = n :: (boxesOf rest).map Prod.fst
        rw [h.1]
      · show n :: (boxesOf (updBox m fromC toC rest)).map Prod.fst =
          n :: (boxesOf rest).map Prod.fst
        rw [ih]

theorem mapGet_boxes_updBox_self (its : List CItem) (m : Str) (fromC toC : Bool)
    (hfirst : mapGet (boxesOf its) m = some fromC) :
    mapGet (boxesOf (updBox m fromC toC its)) m = some toC := by
  induction its with
  | nil => simp [boxesOf, mapGet] at hfirst
  | cons it rest ih =>
    cases it with
    | filler s =>
      show mapGet (boxesOf (updBox m fromC toC rest)) m = some toC
      exact ih hfirst
    | box n c suf =>
      by_cases hn : n = m
      · subst hn
        have hc : c = fromC := by
          have h2 : mapGet ((n, c) :: boxesOf rest) n = some fromC := hfirst
          simp [mapGet] at h2
          exact h2
        subst hc
        rw [updBox, if_pos ⟨rfl, rfl⟩]
        show mapGet ((n, toC) :: boxesOf rest) n = some toC
        simp [mapGet]
      · have hfirst2 : mapGet (boxesOf rest) m = some fromC := by
          have h2 : mapGet ((n, c) :: boxesOf rest) m = some fromC := hfirst
          rw [mapGet, if_neg hn] at h2
          exact h2
        rw [updBox, if_neg (fun hc => hn hc.1)]
        show mapGet ((n, c) :: boxesOf (updBox m fromC toC rest)) m = some toC
        rw [mapGet, if_neg hn]
        exact ih hfirst2

theorem mapGet_boxes_updBox_other (its : List CItem) (m : Str)
    (fromC toC : Bool) (n : Str) (hn : ¬ n = m) :
    mapGet (boxesOf (updBox m fromC toC its)) n = mapGet (boxesOf its) n := by
  induction its with
  | nil => rfl
  | cons it rest ih =>
    cases it with
    | filler s =>
      show mapGet (boxesOf (updBox m fromC toC rest)) n = _
      exact ih
    | box n' c suf =>
      rw [updBox]
      split_ifs with h
      · show mapGet ((m, toC) :: boxesOf rest) n = mapGet ((n', c) :: boxesOf rest) n
        have hn2 : ¬ m = n := fun hc => hn hc.symm
        have hn3 : ¬ n' = n := fun hc => hn (h.1 ▸ hc).symm
        rw [mapGet, if_neg hn2, mapGet, if_neg hn3]
      · show mapGet ((n', c) :: boxesOf (updBox m fromC toC rest)) n =
          mapGet ((n', c) :: boxesOf rest) n
        by_cases hn4 : n' = n
        · rw [mapGet, if_pos hn4, mapGet, if_pos hn4]
        · rw [mapGet, if_neg hn4, mapGet, if_neg hn4]
          exact ih

theorem mapGet_append_notkey (a b : List (Str × Bool)) (n : Str)
    (hn : n ∉ a.map Prod.fst) : mapGet (a ++ b) n = mapGet b n := by
  induction a with
  | nil => rfl
  | cons p a' ih =>
    obtain ⟨k, v⟩ := p
    rw [List.cons_append, mapGet, if_neg (fun hc => hn (by rw [hc]; simp))]
    exact ih (fun hc => hn (List.mem_cons_of_mem _ hc))

theorem mapGet_append (a b : List (Str × Bool)) (n : Str) :
    mapGet (a ++ b) n =
      match mapGet a n with
      | some v => some v
      | none => mapGet b n := by
  induction a with
  | nil => rfl
  | cons p a' ih =>
    obtain ⟨k, v⟩ := p
    by_cases hk : k = n
    · rw [List.cons_append, mapGet, if_pos hk, mapGet, if_pos hk]
    · rw [List.cons_append, mapGet, if_neg hk, mapGet, if_neg hk]
      exact ih

theorem keys_mem_exists (l : List (Str × Bool)) (n : Str)
    (h : n ∈ l.map Prod.fst) : ∃ v, (n, v) ∈ l := by
  rw [List.mem_map] at h
  obtain ⟨p, hp, hfst⟩ := h
  exact ⟨p.2, by rw [← hfst]; exact hp⟩

theorem notkey_of_compat (bs : List (Str × Bool)) (m : Str) (c : Bool)
    (h1 : (m, c) ∉ bs) (h2 : (m, !c) ∉ bs) : m ∉ bs.map Prod.fst := by
  intro hmem
  obtain ⟨v, hv⟩ := keys_mem_exists bs m hmem
  by_cases hvc : v = c
  · subst hvc
    exact h1 hv
  · have hvc2 : v = !c := by
      cases v <;> cases c <;> simp at hvc ⊢
    subst hvc2
    exact h2 hv

theorem applyEditC_self (its : List CItem) (m : Str) (c : Bool)
    (hnd : ((boxesOf its).map Prod.fst).Nodup)
    (hcompat : (m, c) ∉ boxesOf its) :
    mapGet (boxesOf (applyEditC its (m, c))) m = some c := by
  simp only [applyEditC]
  by_cases hin : (m, !c) ∈ boxesOf its
  · rw [if_pos hin]
    exact mapGet_boxes_updBox_self its m (!c) c
      ((mapGet_eq_some_iff (boxesOf its) hnd m (!c)).mpr hin)
  · rw [if_neg hin]
    rw [boxesOf_appendBox]
    rw [mapGet_append_notkey _ _ _ (notkey_of_compat (boxesOf its) m c hcompat hin)]
    simp [mapGet]

theorem applyEditC_other (its : List CItem) (m : Str) (c : Bool) (n : Str)
    (hn : ¬ n = m) :
    mapGet (boxesOf (applyEditC its (m, c))) n = mapGet (boxesOf its) n := by
  simp only [applyEditC]
  by_cases hin : (m, !c) ∈ boxesOf its
  · rw [if_pos hin]
    exact mapGet_boxes_updBox_other its m (!c) c n hn
  · rw [if_neg hin]
    rw [boxesOf_appendBox, mapGet_append]
    cases hg : mapGet (boxesOf its) n with
    | some v => rfl
    | none =>
      show mapGet [(m, c)] n = none
      rw [mapGet, if_neg (fun hc => hn hc.symm)]
      rfl

theorem updBox_wf (its : List CItem) (m : Str) (a b : Bool)
    (hwf : ∀ it ∈ its, wfItem it) (hm : wfName m) :
    ∀ it ∈ updBox m a b its, wfItem it := by
  induction its with
  | nil => simp [updBox]
  | cons it rest ih =>
    cases it with
    | filler s =>
      intro x hx
      rw [updBox] at hx
      rcases List.mem_cons.mp hx with h | h
      · subst h
        exact hwf _ (List.mem_cons_self _ _)
      · exact ih (fun y hy => hwf y (List.mem_cons_of_mem _ hy)) x h
    | box n c suf =>
      intro x hx
      rw [updBox] at hx
      split_ifs at hx with h
      · rcases List.mem_cons.mp hx with h1 | h1
        · subst h1
          exact ⟨hm, (hwf _ (List.mem_cons_self _ _)).2⟩
        · exact hwf x (List.mem_cons_of_mem _ h1)
      · rcases List.mem_cons.mp hx with h1 | h1
        · subst h1
          exact hwf _ (List.mem_cons_self _ _)
        · exact ih (fun y hy => hwf y (List.mem_cons_of_mem _ hy)) x h1

theorem addCR_wf (its : List CItem) (hwf : ∀ it ∈ its, wfItem it) :
    ∀ it ∈ addCR its, wfItem it := by
  induction its with
  | nil => simp [addCR]
  | cons it rest ih =>
    cases rest with
    | nil =>
      cases it with
      | filler s =>
        intro x hx
        rcases List.mem_cons.mp hx with h | h
        · subst h
          intro ch hch
          rcases List.mem_append.mp hch with h2 | h2
          · exact hwf _ (List.mem_cons_self _ _) ch h2
          · rw [List.mem_singleton] at h2
            subst h2
            exact ⟨by decide, by decide⟩
        · simp at h
      | box n c suf =>
        intro x hx
        rcases List.mem_cons.mp hx with h | h
        · subst h
          have hw := hwf _ (List.mem_cons_self _ _)
          refine ⟨hw.1, ?_⟩
          intro ch hch
          rcases List.mem_append.mp hch with h2 | h2
          · exact hw.2 ch h2
          · rw [List.mem_singleton] at h2
            subst h2
            exact ⟨by decide, by decide⟩
        · simp at h
    | cons it2 rest2 =>
      have ha : addCR (it :: it2 :: rest2) = it :: addCR (it2 :: rest2) := by
        cases it <;> rfl
      rw [ha]
      intro x hx
      rcases List.mem_cons.mp hx with h | h
      · subst h
        exact hwf _ (List.mem_cons_self _ _)
      · exact ih (fun y hy => hwf y (List.mem_cons_of_mem _ hy)) x h

theorem appendBox_ne_nil (its : List CItem) (m : Str) (c : Bool) :
    appendBox its m c ≠ [] := by
  unfold appendBox
  simp

theorem applyEditC_inv (its : List CItem) (m : Str) (c : Bool)
    (hinv : invC its) (hm : wfName m)
    (hcompat : (m, c) ∉ boxesOf its) : invC (applyEditC its (m, c)) := by
  obtain ⟨hne, hwf, hnd⟩ := hinv
  simp only [applyEditC]
  by_cases hin : (m, !c) ∈ boxesOf its
  · rw [if_pos hin]
    exact ⟨updBox_ne_nil m (!c) c its hne, updBox_wf its m (!c) c hwf hm,
      by rw [boxNames_updBox]; exact hnd⟩
  · rw [if_neg hin]
    refine ⟨appendBox_ne_nil its m c, ?_, ?_⟩
    · intro x hx
      unfold appendBox at hx
      rcases List.mem_append.mp hx with h | h
      · exact addCR_wf its hwf x h
      · rcases List.mem_cons.mp h with h1 | h1
        · subst h1
          refine ⟨hm, ?_⟩
          intro ch hch
          rw [List.mem_singleton] at hch
          subst hch
          exact ⟨by decide, by decide⟩
        · rw [List.mem_singleton] at h1
          subst h1
          intro ch hch
          simp at hch
    · rw [boxesOf_appendBox, List.map_append]
      apply List.Nodup.append hnd (by simp)
      intro x hx hx2
      simp only [List.map_cons, List.map_nil, List.mem_singleton] at hx2
      rw [hx2] at hx
      exact notkey_of_compat (boxesOf its) m c hcompat hin hx

theorem mapGet_none_iff (m : List (Str × Bool)) (n : Str) :
    mapGet m n = none ↔ n ∉ m.map Prod.fst := by
  induction m with
  | nil => simp [mapGet]
  | cons p r ih =>
    obtain ⟨k, v⟩ := p
    by_cases hk : k = n
    · subst hk
      simp [mapGet]
    · rw [mapGet, if_neg hk, ih]
      simp only [List.map_cons, List.mem_cons, not_or]
      constructor
      · intro h
        exact ⟨fun hc => hk hc.symm, h⟩
      · rintro ⟨-, h⟩
        exact h

theorem syncC_spec (cl : List (Str × Bool)) : ∀ (its : List CItem),
    invC its →
    ((cl.map Prod.fst).Nodup) →
    (∀ p ∈ cl, wfName p.1 ∧ (p.1, p.2) ∉ boxesOf its) →
    syncBody (renderC its) cl = renderC (syncC its cl) ∧
    invC (syncC its cl) ∧
    (∀ n, mapGet (boxesOf (syncC its cl)) n =
      match mapGet cl n with
      | some c => some c
      | none => mapGet (boxesOf its) n) := by
  induction cl with
  | nil =>
    intro its hinv hnd hcompat
    exact ⟨rfl, hinv, fun n => rfl⟩
  | cons p rest ih =>
    intro its hinv hnd hcompat
    obtain ⟨m, c⟩ := p
    have hm : wfName m := (hcompat _ (List.mem_cons_self _ _)).1
    have hcm : (m, c) ∉ boxesOf its := (hcompat _ (List.mem_cons_self _ _)).2
    have hinv2 : invC (applyEditC its (m, c)) := applyEditC_inv its m c hinv hm hcm
    have hnd2 : (rest.map Prod.fst).Nodup := by
      simp only [List.map_cons, List.nodup_cons] at hnd
      exact hnd.2
    have hmrest : m ∉ rest.map Prod.fst := by
      simp only [List.map_cons, List.nodup_cons] at hnd
      exact hnd.1
    have hcompat2 : ∀ q ∈ rest,
        wfName q.1 ∧ (q.1, q.2) ∉ boxesOf (applyEditC its (m, c)) := by
      intro q hq
      have hq1 := hcompat q (List.mem_cons_of_mem _ hq)
      refine ⟨hq1.1, ?_⟩
      intro hmem
      have hqm : ¬ q.1 = m := by
        intro hc
        exact hmrest (hc ▸ List.mem_map_of_mem Prod.fst hq)
      have heq := applyEditC_other its m c q.1 hqm
      have hget := (mapGet_eq_some_iff _ hinv2.2.2 q.1 q.2).mpr hmem
      rw [heq] at hget
      exact hq1.2 ((mapGet_eq_some_iff _ hinv.2.2 q.1 q.2).mp hget)
    have hstep : syncC its ((m, c) :: rest) = syncC (applyEditC its (m, c)) rest := rfl
    obtain ⟨hb, hi, hg⟩ := ih (applyEditC its (m, c)) hinv2 hnd2 hcompat2
    rw [hstep]
    refine ⟨?_, hi, ?_⟩
    · show syncBody (applyEdit (renderC its) (m, c)) rest = _
      rw [applyEdit_correspond its m c hinv.2.1 hm hinv.2.2 hinv.1]
      exact hb
    · intro n
      have hgn := hg n
      by_cases hn : n = m
      · subst hn
        rw [show mapGet ((n, c) :: rest) n = some c from by simp [mapGet]]
        rw [show mapGet rest n = none from (mapGet_none_iff rest n).mpr hmrest] at hgn
        rw [hgn]
        exact applyEditC_self its n c hinv.2.2 hcm
      · rw [show mapGet ((m, c) :: rest) n = mapGet rest n from by
          rw [mapGet, if_neg (fun hc => hn hc.symm)]]
        rw [hgn]
        cases hr : mapGet rest n with
        | some v => rfl
        | none =>
          show mapGet (boxesOf (applyEditC its (m, c))) n = mapGet (boxesOf its) n
          exact applyEditC_other its m c n hn

theorem chkOf_mark (c : Bool) (n : Str) :
    chkOf (Submatch.mk [markChar c] n) = c := by
  cases c <;> rfl

theorem lastMatchFor_none (watch : List Str) (n : Str) (ts : List Submatch)
    (h : ∀ v ∈ ts, ¬ (trimSpace v.g2 = n ∧ trimSpace v.g2 ∈ watch)) :
    lastMatchFor watch n ts = none := by
  induction ts with
  | nil => rfl
  | cons v r ih =>
    rw [lastMatchFor]
    rw [ih (fun x hx => h x (List.mem_cons_of_mem _ hx))]
    rw [if_neg (h v (List.mem_cons_self _ _))]

theorem lastMatchFor_boxes (watch : List Str) (n : Str) :
    ∀ (bs : List (Str × Bool)), (∀ p ∈ bs, trimSpace p.1 = p.1) →
    ((bs.map Prod.fst).Nodup) → n ∈ watch →
    (match lastMatchFor watch n
        (bs.map fun p => Submatch.mk [markChar p.2] p.1) with
      | some w => some (chkOf w)
      | none => (none : Option Bool)) = mapGet bs n := by
  intro bs
  induction bs with
  | nil => intro _ _ _; rfl
  | cons p r ih =>
    obtain ⟨nm, c⟩ := p
    intro htrim hnd hw
    have htn : trimSpace nm = nm := htrim (nm, c) (List.mem_cons_self _ _)
    simp only [List.map_cons, List.nodup_cons] at hnd
    by_cases hnm : nm = n
    · subst hnm
      have hnone : lastMatchFor watch nm
          (r.map fun p => Submatch.mk [markChar p.2] p.1) = none := by
        apply lastMatchFor_none
        intro v hv hcond
        rw [List.mem_map] at hv
        obtain ⟨q, hq, hvq⟩ := hv
        rw [← hvq] at hcond
        have hq1 : trimSpace q.1 = q.1 := htrim q (List.mem_cons_of_mem _ hq)
        rw [show (Submatch.mk [markChar q.2] q.1).g2 = q.1 from rfl, hq1] at hcond
        exact hnd.1 (hcond.1 ▸ List.mem_map_of_mem Prod.fst hq)
      rw [show List.map (fun p => Submatch.mk [markChar p.2] p.1) ((nm, c) :: r) =
        Submatch.mk [markChar c] nm ::
          (r.map fun p => Submatch.mk [markChar p.2] p.1) from rfl]
      rw [lastMatchFor, hnone]
      rw [if_pos (by
        refine ⟨?_, ?_⟩
        · exact htn
        · rw [htn]; exact hw)]
      rw [show mapGet ((nm, c) :: r) nm = some c from by simp [mapGet]]
      show some (chkOf (Submatch.mk [markChar c] nm)) = some c
      rw [chkOf_mark]
    · rw [show List.map (fun p => Submatch.mk [markChar p.2] p.1) ((nm, c) :: r) =
        Submatch.mk [markChar c] nm ::
          (r.map fun p => Submatch.mk [markChar p.2] p.1) from rfl]
      rw [lastMatchFor]
      rw [show mapGet ((nm, c) :: r) n = mapGet r n from by
        rw [mapGet, if_neg hnm]]
      have ihr := ih (fun q hq => htrim q (List.mem_cons_of_mem _ hq)) hnd.2 hw
      cases hl : lastMatchFor watch n (r.map fun p => Submatch.mk [markChar p.2] p.1) with
      | some w =>
        rw [hl] at ihr
        exact ihr
      | none =>
        rw [hl] at ihr
        rw [if_neg (by
          rw [show (Submatch.mk [markChar c] nm).g2 = nm from rfl, htn]
          rintro ⟨h1, -⟩
          exact hnm h1)]
        exact ihr

theorem extract_render_get (watch : List Str) (its : List CItem) (n : Str)
    (hwf : ∀ it ∈ its, wfItem it) (hnd : ((boxesOf its).map Prod.fst).Nodup)
    (hn : n ∈ watch) :
    mapGet (extractLabelsDefault watch (renderC its)) n =
      mapGet (boxesOf its) n := by
  show mapGet (extractGo watch [] (findAll (renderC its))) n = _
  rw [findAll_render its hwf]
  rw [extractGo_mapGet]
  have htrim : ∀ p ∈ boxesOf its, trimSpace p.1 = p.1 := by
    intro p hp
    obtain ⟨suf, hs⟩ := (boxesOf_mem_iff its p.1 p.2).mp (by
      rw [show (p.1, p.2) = p from rfl]
      exact hp)
    exact (hwf _ hs).1.2.2
  have h := lastMatchFor_boxes watch n (boxesOf its) htrim hnd hn
  rw [show mapGet ([] : List (Str × Bool)) n = none from rfl]
  cases hl : lastMatchFor watch n
      ((boxesOf its).map fun p => Submatch.mk [markChar p.2] p.1) with
  | some w =>
    rw [hl] at h
    exact h
  | none =>
    rw [hl] at h
    exact h

theorem mapSet_keys_nodup (m : List (Str × Bool)) (k : Str) (v : Bool)
    (h : (m.map Prod.fst).Nodup) : ((mapSet m k v).map Prod.fst).Nodup := by
  induction m with
  | nil => simp [mapSet]
  | cons p r ih =>
    obtain ⟨k', v'⟩ := p
    simp only [List.map_cons, List.nodup_cons] at h
    by_cases hk : k' = k
    · subst hk
      rw [mapSet, if_pos rfl]
      simp only [List.map_cons, List.nodup_cons]
      exact h
    · rw [mapSet, if_neg hk]
      simp only [List.map_cons, List.nodup_cons]
      refine ⟨?_, ih h.2⟩
      intro hmem
      obtain ⟨q, hq, hfst⟩ := List.mem_map.mp hmem
      rcases mapSet_mem r k v q hq with h1 | h1
      · rw [h1] at hfst
        exact hk hfst.symm
      · exact h.1 (hfst ▸ List.mem_map_of_mem Prod.fst h1)

theorem extractGo_keys_nodup (watch : List Str) (ts : List Submatch) :
    ∀ acc : List (Str × Bool), ((acc.map Prod.fst).Nodup) →
    ((extractGo watch acc ts).map Prod.fst).Nodup := by
  induction ts with
  | nil => intro acc h; exact h
  | cons v r ih =>
    intro acc h
    rw [extractGo]
    split_ifs with h1
    · exact ih _ (mapSet_keys_nodup acc _ _ h)
    · exact ih _ h

theorem extract_keys_nodup (watch : List Str) (body : Str) :
    ((extractLabelsDefault watch body).map Prod.fst).Nodup :=
  extractGo_keys_nodup watch (findAll body) [] (by simp)

theorem foldl1_get (desired : List (Str × Bool)) (current : List Str) :
    ∀ (init : List (Str × Bool)) (n : Str),
    mapGet (current.foldl (fun acc l =>
      if mapGet desired l = some true then acc else mapSet acc l true) init) n =
    if n ∈ current ∧ mapGet desired n ≠ some true then some true
    else mapGet init n := by
  induction current with
  | nil =>
    intro init n
    simp
  | cons l r ih =>
    intro init n
    rw [List.foldl_cons]
    by_cases hl : mapGet desired l = some true
    · rw [if_pos hl, ih]
      by_cases hn : n ∈ r ∧ mapGet desired n ≠ some true
      · rw [if_pos hn, if_pos ⟨List.mem_cons_of_mem _ hn.1, hn.2⟩]
      · rw [if_neg hn]
        by_cases hn2 : n ∈ l :: r ∧ mapGet desired n ≠ some true
        · rcases List.mem_cons.mp hn2.1 with h1 | h1
          · subst h1
            exact absurd hl hn2.2
          · exact absurd ⟨h1, hn2.2⟩ hn
        · rw [if_neg hn2]
    · rw [if_neg hl, ih]
      by_cases hn : n ∈ r ∧ mapGet desired n ≠ some true
      · rw [if_pos hn, if_pos ⟨List.mem_cons_of_mem _ hn.1, hn.2⟩]
      · rw [if_neg hn, mapGet_mapSet]
        by_cases hnl : n = l
        · subst hnl
          rw [if_pos rfl, if_pos ⟨List.mem_cons_self _ _, hl⟩]
        · rw [if_neg hnl]
          by_cases hn2 : n ∈ l :: r ∧ mapGet desired n ≠ some true
          · rcases List.mem_cons.mp hn2.1 with h1 | h1
            · exact absurd h1 hnl
            · exact absurd ⟨h1, hn2.2⟩ hn
          · rw [if_neg hn2]

theorem foldl2_get (desired : List (Str × Bool)) (current : List Str) :
    ∀ (init : List (Str × Bool)) (n : Str),
    mapGet (desired.foldl (fun acc p =>
      if ¬ p.1 ∈ current ∧ p.2 = true then mapSet acc p.1 false else acc) init) n =
    if n ∉ current ∧ (n, true) ∈ desired then some false
    else mapGet init n := by
  induction desired with
  | nil =>
    intro init n
    simp
  | cons p r ih =>
    intro init n
    obtain ⟨k, b⟩ := p
    rw [List.foldl_cons]
    by_cases hp : ¬ k ∈ current ∧ b = true
    · rw [if_pos (by exact hp)]
      rw [ih]
      by_cases hn : n ∉ current ∧ (n, true) ∈ r
      · rw [if_pos hn, if_pos ⟨hn.1, List.mem_cons_of_mem _ hn.2⟩]
      · rw [if_neg hn, mapGet_mapSet]
        by_cases hnk : n = k
        · subst hnk
          rw [if_pos rfl, if_pos ⟨hp.1, by rw [hp.2]; exact List.mem_cons_self _ _⟩]
        · rw [if_neg hnk]
          by_cases hn2 : n ∉ current ∧ (n, true) ∈ (k, b) :: r
          · rcases List.mem_cons.mp hn2.2 with h1 | h1
            · injection h1 with h2 h3
              exact absurd h2 hnk
            · exact absurd ⟨hn2.1, h1⟩ hn
          · rw [if_neg hn2]
    · rw [if_neg (by exact hp)]
      rw [ih]
      by_cases hn : n ∉ current ∧ (n, true) ∈ r
      · rw [if_pos hn, if_pos ⟨hn.1, List.mem_cons_of_mem _ hn.2⟩]
      · rw [if_neg hn]
        by_cases hn2 : n ∉ current ∧ (n, true) ∈ (k, b) :: r
        · rcases List.mem_cons.mp hn2.2 with h1 | h1
          · injection h1 with h2 h3
            subst h2
            exact absurd ⟨hn2.1, h3.symm⟩ hp
          · exact absurd ⟨hn2.1, h1⟩ hn
        · rw [if_neg hn2]

theorem changeListOf_get (desired : List (Str × Bool)) (current : List Str)
    (n : Str) :
    mapGet (changeListOf desired current) n =
      if n ∉ current ∧ (n, true) ∈ desired then some false
      else if n ∈ current ∧ mapGet desired n ≠ some true then some true
      else none := by
  unfold changeListOf
  rw [foldl2_get, foldl1_get]
  rfl

theorem foldl1_keys_nodup (desired : List (Str × Bool)) (current : List Str) :
    ∀ init : List (Str × Bool), ((init.map Prod.fst).Nodup) →
    (((current.foldl (fun acc l =>
      if mapGet desired l = some true then acc else mapSet acc l true)
      init).map Prod.fst).Nodup) := by
  induction current with
  | nil => intro init h; exact h
  | cons l r ih =>
    intro init h
    rw [List.foldl_cons]
    split_ifs with h1
    · exact ih init h
    · exact ih _ (mapSet_keys_nodup init l true h)

theorem foldl2_keys_nodup (desired : List (Str × Bool)) (current : List Str) :
    ∀ init : List (Str × Bool), ((init.map Prod.fst).Nodup) →
    (((desired.foldl (fun acc p =>
      if ¬ p.1 ∈ current ∧ p.2 = true then mapSet acc p.1 false else acc)
      init).map Prod.fst).Nodup) := by
  induction desired with
  | nil => intro init h; exact h
  | cons p r ih =>
    intro init h
    rw [List.foldl_cons]
    split_ifs with h1
    · exact ih _ (mapSet_keys_nodup init p.1 false h)
    · exact ih init h

theorem changeListOf_keys_nodup (desired : List (Str × Bool))
    (current : List Str) :
    (((changeListOf desired current).map Prod.fst).Nodup) := by
  unfold changeListOf
  exact foldl2_keys_nodup desired current _
    (foldl1_keys_nodup desired current [] (by simp))

/-- Claim C8 amended: for a canonical body (non-empty wellformed lines with
pairwise distinct checkbox names), a current label set of wellformed watched
names, and the desired mapping obtained by running the extractor with the
default pattern over that body, applying the body edits computed by the body
synchronizer and re-running the extractor on the rebuilt body marks a watched
wellformed name as checked exactly when it lies in the current label set that
drove the edit. -/
theorem body_roundtrip_spec (watch : List Str) (its : List CItem)
    (current : List Str) (n : Str)
    (hinv : invC its)
    (hcur : ∀ l ∈ current, l ∈ watch ∧ wfName l)
    (hn : n ∈ watch) :
    mapGet (extractLabelsDefault watch
      (syncBody (renderC its)
        (changeListOf (extractLabelsDefault watch (renderC its)) current))) n
      = some true ↔ n ∈ current := by
  have hwf := hinv.2.1
  have hnd := hinv.2.2
  have hdes : ∀ x, x ∈ watch →
      mapGet (extractLabelsDefault watch (renderC its)) x =
        mapGet (boxesOf its) x :=
    fun x hx => extract_render_get watch its x hwf hnd hx
  have hclnd := changeListOf_keys_nodup
    (extractLabelsDefault watch (renderC its)) current
  have hdesnd := extract_keys_nodup watch (renderC its)
  have hcompat : ∀ p ∈ changeListOf (extractLabelsDefault watch (renderC its))
      current, wfName p.1 ∧ (p.1, p.2) ∉ boxesOf its := by
    intro p hp
    have hget : mapGet (changeListOf (extractLabelsDefault watch (renderC its))
        current) p.1 = some p.2 :=
      (mapGet_eq_some_iff _ hclnd p.1 p.2).mpr hp
    rw [changeListOf_get] at hget
    split_ifs at hget with h1 h2
    · injection hget with hv
      have hd : mapGet (extractLabelsDefault watch (renderC its)) p.1 =
          some true := (mapGet_eq_some_iff _ hdesnd _ _).mpr h1.2
      have hw1 : p.1 ∈ watch := by
        rcases extractGo_mem watch (findAll (renderC its)) [] (p.1, true) h1.2
          with h | h
        · exact h
        · simp at h
      have hbox : mapGet (boxesOf its) p.1 = some true := by
        rw [← hdes p.1 hw1]
        exact hd
      have hmem : (p.1, true) ∈ boxesOf its :=
        (mapGet_eq_some_iff _ hnd _ _).mp hbox
      obtain ⟨suf, hs⟩ := (boxesOf_mem_iff its _ _).mp hmem
      refine ⟨(hwf _ hs).1, ?_⟩
      intro hmem2
      have hbox2 : mapGet (boxesOf its) p.1 = some p.2 :=
        (mapGet_eq_some_iff _ hnd _ _).mpr hmem2
      rw [hbox] at hbox2
      injection hbox2 with hv2
      rw [← hv] at hv2
      exact Bool.noConfusion hv2
    · injection hget with hv
      have hc1 := hcur p.1 h2.1
      refine ⟨hc1.2, ?_⟩
      intro hmem2
      have hbox2 : mapGet (boxesOf its) p.1 = some p.2 :=
        (mapGet_eq_some_iff _ hnd _ _).mpr hmem2
      rw [← hv] at hbox2
      have hd : mapGet (extractLabelsDefault watch (renderC its)) p.1 =
          some true := by
        rw [hdes p.1 hc1.1]
        exact hbox2
      exact h2.2 hd
  obtain ⟨hb, hi, hg⟩ := syncC_spec
    (changeListOf (extractLabelsDefault watch (renderC its)) current) its hinv
    hclnd hcompat
  rw [hb]
  rw [extract_render_get watch _ n hi.2.1 hi.2.2 hn]
  rw [hg n]
  rw [changeListOf_get]
  by_cases hcur2 : n ∈ current
  · rw [if_neg (fun hc => hc.1 hcur2)]
    by_cases hd : mapGet (extractLabelsDefault watch (renderC its)) n = some true
    · rw [if_neg (fun hc => hc.2 hd)]
      show mapGet (boxesOf its) n = some true ↔ n ∈ current
      rw [← hdes n hn]
      constructor
      · intro _
        exact hcur2
      · intro _
        exact hd
    · rw [if_pos ⟨hcur2, hd⟩]
      show some true = some true ↔ n ∈ current
      simp [hcur2]
  · by_cases hdt : (n, true) ∈ extractLabelsDefault watch (renderC its)
    · rw [if_pos ⟨hcur2, hdt⟩]
      show some false = some true ↔ n ∈ current
      simp [hcur2]
    · rw [if_neg (fun hc => hdt hc.2)]
      rw [if_neg (fun hc => hcur2 hc.1)]
      show mapGet (boxesOf its) n = some true ↔ n ∈ current
      rw [← hdes n hn]
      rw [mapGet_eq_some_iff _ hdesnd n true]
      simp [hdt, hcur2]

/-- Claim C8 counterexample: a body repeating the checked doc line twice, with
no current labels. The extractor reports doc as checked, the change list asks
to uncheck it, replace-first rewrites only the first occurrence, and the
re-extracted body still reports doc as checked even though doc is not current. -/
theorem body_roundtrip_cex :
    extractLabelsDefault [docS] (("- [x] `doc` - [x] `doc`").data) =
      [(docS, true)] ∧
    changeListOf [(docS, true)] [] = [(docS, false)] ∧
    syncBody (("- [x] `doc` - [x] `doc`").data) [(docS, false)] =
      ("- [ ] `doc` - [x] `doc`").data ∧
    mapGet (extractLabelsDefault [docS]
      (syncBody (("- [x] `doc` - [x] `doc`").data)
        (changeListOf (extractLabelsDefault [docS]
          (("- [x] `doc` - [x] `doc`").data)) []))) docS = some true ∧
    docS ∉ ([] : List Str) := by
  decide

/-- Witness for the amended C8 at a concrete input: a body that is a single
empty filler line, watch = current = {doc}. -/
theorem body_roundtrip_spec_witness :
    invC [CItem.filler []] ∧
    (∀ l ∈ ([docS] : List Str), l ∈ [docS] ∧ wfName l) ∧
    docS ∈ [docS] ∧
    (mapGet (extractLabelsDefault [docS]
      (syncBody (renderC [CItem.filler []])
        (changeListOf (extractLabelsDefault [docS] (renderC [CItem.filler []]))
          [docS]))) docS = some true ↔ docS ∈ [docS]) := by
  have hinv : invC [CItem.filler []] := by
    refine ⟨by simp, ?_, by simp [boxesOf]⟩
    intro it h
    simp only [List.mem_singleton] at h
    subst h
    intro c hc
    cases hc
  have hcur : ∀ l ∈ ([docS] : List Str), l ∈ [docS] ∧ wfName l := by
    intro l hl
    simp only [List.mem_singleton] at hl
    subst hl
    exact ⟨by simp, ⟨by decide, by decide, by decide⟩⟩
  exact ⟨hinv, hcur, by simp,
    body_roundtrip_spec [docS] [CItem.filler []] [docS] docS hinv hcur
      (by simp)⟩

end Docbot
